import Mathlib

/-!
Verification of the fixed-size segment allocator
(`src/execution/index/fixed_size_allocator.cpp`).

The C++ code is shallowly embedded: machine words (`idx_t`, `validity_t`,
both 64-bit unsigned) are `Nat` with explicit `% 2 ^ 64` wherever overflow
or wraparound matters, `std::map` is a key-sorted association list,
`std::set` is a sorted list, and code that throws `InternalException`
returns `Option`/`none`.
-/

namespace FixedSizeAllocator

/-- Modelled from the spec: `Storage::BLOCK_SIZE` is a compile-time constant;
the spec's concrete scenarios fix it at 262144 (256 KiB). The header defining
it is not part of the sources. -/
def BLOCK_SIZE : Nat := 262144

/-- Modelled from the spec: `sizeof(validity_t)` — a validity word is 64 bits,
so 8 bytes. -/
def validity_size : Nat := 8

/-- Modelled from the spec: the mask table `BASE[i]` isolates the lower half of
every sub-word at level `i` (`0x00000000FFFFFFFF`, `0x0000FFFF0000FFFF`, ...,
`0x5555555555555555`); the header declaring the table is not in the sources. -/
def BASE : Nat → Nat
  | 0 => 0x00000000FFFFFFFF
  | 1 => 0x0000FFFF0000FFFF
  | 2 => 0x00FF00FF00FF00FF
  | 3 => 0x0F0F0F0F0F0F0F0F
  | 4 => 0x3333333333333333
  | _ => 0x5555555555555555

/-- Modelled from the spec: the shift table `SHIFT = [32, 16, 8, 4, 2, 1]`. -/
def SHIFT : Nat → Nat
  | 0 => 32
  | 1 => 16
  | 2 => 8
  | 3 => 4
  | 4 => 2
  | _ => 1

/-- One iteration of the mask/shift ladder inside `GetOffset`
(`fixed_size_allocator.cpp:318-330`): if `entry & BASE[i]` is non-zero, mask;
else shift by `SHIFT[i]` and add `SHIFT[i]` to the bit position. The state is
the pair `(entry, first_valid_bit)`. -/
def rightStep (st : Nat × Nat) (i : Nat) : Nat × Nat :=
  if st.1 &&& BASE i ≠ 0 then (st.1 &&& BASE i, st.2) else (st.1 >>> SHIFT i, st.2 + SHIFT i)

/-- The 6-iteration loop of `GetOffset` that locates the rightmost set bit of a
64-bit word (`fixed_size_allocator.cpp:314-330`), returning `first_valid_bit`. -/
def findFirstValidBit (entry : Nat) : Nat :=
  ([0, 1, 2, 3, 4, 5].foldl rightStep (entry, 0)).2

/-- `n` has exactly `p` trailing zero bits. -/
def TrailingZeros (n p : Nat) : Prop := 2 ^ p ∣ n ∧ ¬ 2 ^ (p + 1) ∣ n

theorem land_mask_eq_mod {e m h : Nat} (he : e < 2 ^ (2 * h))
    (hm : m % 2 ^ (2 * h) = 2 ^ h - 1) : e &&& m = e % 2 ^ h := by
  apply Nat.eq_of_testBit_eq
  intro j
  rw [Nat.testBit_and, Nat.testBit_mod_two_pow]
  by_cases hj : j < 2 * h
  · have hmj : m.testBit j = decide (j < h) := by
      have := Nat.testBit_mod_two_pow m (2 * h) j
      rw [hm, Nat.testBit_two_pow_sub_one] at this
      simpa [hj] using this.symm
    rw [hmj]
    by_cases hjh : j < h <;> simp [hjh]
  · have h2j : (2 : Nat) ^ (2 * h) ≤ 2 ^ j := Nat.pow_le_pow_right (by norm_num) (Nat.le_of_not_lt hj)
    have : e.testBit j = false := Nat.testBit_lt_two_pow (lt_of_lt_of_le he h2j)
    simp [this, show ¬ j < h by omega]

theorem trailingZeros_mod {e h p : Nat} (hp : TrailingZeros (e % 2 ^ h) p)
    (hne : e % 2 ^ h ≠ 0) : TrailingZeros e p := by
  obtain ⟨hd, hnd⟩ := hp
  have hple : 2 ^ p ≤ e % 2 ^ h := Nat.le_of_dvd (Nat.pos_of_ne_zero hne) hd
  have hph : p < h := by
    by_contra hc
    have : (2 : Nat) ^ h ≤ 2 ^ p := Nat.pow_le_pow_right (by norm_num) (Nat.le_of_not_lt hc)
    have := Nat.mod_lt e (show 0 < 2 ^ h by positivity)
    omega
  have hdivfull : (2 : Nat) ^ p ∣ e := by
    have h1 : (2 : Nat) ^ p ∣ 2 ^ h := pow_dvd_pow 2 (Nat.le_of_lt hph)
    have h2 : e = 2 ^ h * (e / 2 ^ h) + e % 2 ^ h := (Nat.div_add_mod e (2 ^ h)).symm
    rw [h2]
    exact Nat.dvd_add (Dvd.dvd.mul_right h1 _) hd
  refine ⟨hdivfull, fun hcon => hnd ?_⟩
  have h1 : (2 : Nat) ^ (p + 1) ∣ 2 ^ h := pow_dvd_pow 2 hph
  have h2 : e % 2 ^ h = e - 2 ^ h * (e / 2 ^ h) := by
    have := Nat.div_add_mod e (2 ^ h)
    omega
  rw [h2]
  exact Nat.dvd_sub' hcon (Dvd.dvd.mul_right h1 _)

theorem trailingZeros_shift {e h p : Nat} (hz : e % 2 ^ h = 0)
    (hp : TrailingZeros (e / 2 ^ h) p) : TrailingZeros e (p + h) := by
  obtain ⟨hd, hnd⟩ := hp
  have hde : e = 2 ^ h * (e / 2 ^ h) := by
    have := Nat.div_add_mod e (2 ^ h)
    omega
  constructor
  · rw [hde]
    have hpow : (2 : Nat) ^ (p + h) = 2 ^ h * 2 ^ p := by ring
    rw [hpow]
    exact mul_dvd_mul_left _ hd
  · intro hcon
    apply hnd
    rw [hde] at hcon
    have hcan : (2 : Nat) ^ (p + h + 1) = 2 ^ h * 2 ^ (p + 1) := by ring
    rw [hcan] at hcon
    exact (mul_dvd_mul_iff_left (show (2 : Nat) ^ h ≠ 0 by positivity)).mp hcon

theorem mask_mod_shift (i : Nat) (hi : i < 6) : BASE i % 2 ^ (2 * SHIFT i) = 2 ^ SHIFT i - 1 := by
  interval_cases i <;> decide

theorem rightStep_spec {x : Nat} (i : Nat) (hi : i < 6) (st : Nat × Nat)
    (he : st.1 ≠ 0) (hlt : st.1 < 2 ^ (2 * SHIFT i))
    (hrel : ∀ p, TrailingZeros st.1 p → TrailingZeros x (p + st.2)) :
    (rightStep st i).1 ≠ 0 ∧ (rightStep st i).1 < 2 ^ SHIFT i ∧
      ∀ p, TrailingZeros (rightStep st i).1 p → TrailingZeros x (p + (rightStep st i).2) := by
  have hmask : st.1 &&& BASE i = st.1 % 2 ^ SHIFT i := land_mask_eq_mod hlt (mask_mod_shift i hi)
  have hpos : 0 < 2 ^ SHIFT i := by positivity
  unfold rightStep
  rw [hmask]
  by_cases hz : st.1 % 2 ^ SHIFT i ≠ 0
  · rw [if_pos hz]
    exact ⟨hz, Nat.mod_lt _ hpos, fun p hp => hrel p (trailingZeros_mod hp hz)⟩
  · rw [if_neg hz]
    push_neg at hz
    have hdiv : st.1 >>> SHIFT i = st.1 / 2 ^ SHIFT i := Nat.shiftRight_eq_div_pow _ _
    have hne2 : st.1 / 2 ^ SHIFT i ≠ 0 := by
      intro hcon
      apply he
      have := Nat.div_add_mod st.1 (2 ^ SHIFT i)
      rw [hcon, hz] at this
      omega
    have hlt2 : st.1 / 2 ^ SHIFT i < 2 ^ SHIFT i := by
      apply Nat.div_lt_of_lt_mul
      have hpow : (2 : Nat) ^ (2 * SHIFT i) = 2 ^ SHIFT i * 2 ^ SHIFT i := by
        rw [two_mul, pow_add]
      omega
    refine ⟨by simpa [hdiv] using hne2, by simpa [hdiv] using hlt2, ?_⟩
    intro p hp
    simp only [hdiv] at hp
    have hstep := trailingZeros_shift hz hp
    have hres := hrel (p + SHIFT i) hstep
    have hcomm : p + SHIFT i + st.2 = p + (st.2 + SHIFT i) := by omega
    rwa [hcomm] at hres

theorem findFirstValidBit_trailingZeros {x : Nat} (hne : x ≠ 0) (hlt : x < 2 ^ 64) :
    TrailingZeros x (findFirstValidBit x) := by
  have hrel0 : ∀ p, TrailingZeros (x, (0 : Nat)).1 p → TrailingZeros x (p + (x, (0 : Nat)).2) := by
    intro p hp
    simpa using hp
  have h0 := rightStep_spec 0 (by norm_num) (x, 0) hne (by norm_num [SHIFT]; exact hlt) hrel0
  have hb1 : (rightStep (x, 0) 0).1 < 2 ^ (2 * SHIFT 1) := by
    have := h0.2.1
    norm_num [SHIFT] at this ⊢
    exact this
  have h1 := rightStep_spec 1 (by norm_num) _ h0.1 hb1 h0.2.2
  have hb2 : (rightStep (rightStep (x, 0) 0) 1).1 < 2 ^ (2 * SHIFT 2) := by
    have := h1.2.1
    norm_num [SHIFT] at this ⊢
    exact this
  have h2 := rightStep_spec 2 (by norm_num) _ h1.1 hb2 h1.2.2
  have hb3 : (rightStep (rightStep (rightStep (x, 0) 0) 1) 2).1 < 2 ^ (2 * SHIFT 3) := by
    have := h2.2.1
    norm_num [SHIFT] at this ⊢
    exact this
  have h3 := rightStep_spec 3 (by norm_num) _ h2.1 hb3 h2.2.2
  have hb4 : (rightStep (rightStep (rightStep (rightStep (x, 0) 0) 1) 2) 3).1 <
      2 ^ (2 * SHIFT 4) := by
    have := h3.2.1
    norm_num [SHIFT] at this ⊢
    exact this
  have h4 := rightStep_spec 4 (by norm_num) _ h3.1 hb4 h3.2.2
  have hb5 : (rightStep (rightStep (rightStep (rightStep (rightStep (x, 0) 0) 1) 2) 3) 4).1 <
      2 ^ (2 * SHIFT 5) := by
    have := h4.2.1
    norm_num [SHIFT] at this ⊢
    exact this
  have h5 := rightStep_spec 5 (by norm_num) _ h4.1 hb5 h4.2.2
  have hone :
      (rightStep (rightStep (rightStep (rightStep (rightStep (rightStep (x, 0) 0) 1) 2) 3) 4)
        5).1 = 1 := by
    have hlt1 := h5.2.1
    have hne1 := h5.1
    norm_num [SHIFT] at hlt1
    omega
  have hzero : TrailingZeros
      (rightStep (rightStep (rightStep (rightStep (rightStep (rightStep (x, 0) 0) 1) 2) 3) 4)
        5).1 0 := by
    rw [hone]
    exact ⟨by norm_num, by norm_num⟩
  have hfin := h5.2.2 0 hzero
  rw [Nat.zero_add] at hfin
  simpa [findFirstValidBit, List.foldl] using hfin

theorem trailingZeros_testBit {x p : Nat} (h : TrailingZeros x p) :
    x.testBit p = true ∧ ∀ j, j < p → x.testBit j = false := by
  obtain ⟨hd, hnd⟩ := h
  obtain ⟨q, hq⟩ := hd
  have hpow : 0 < 2 ^ p := by positivity
  have hqodd : q % 2 = 1 := by
    rcases Nat.mod_two_eq_zero_or_one q with h0 | h1
    · exfalso
      apply hnd
      obtain ⟨r, hr⟩ := Nat.dvd_of_mod_eq_zero h0
      refine ⟨r, ?_⟩
      rw [hq, hr, pow_succ]
      ring
    · exact h1
  constructor
  · rw [Nat.testBit_to_div_mod]
    have hdivq : x / 2 ^ p = q := by
      rw [hq]
      exact Nat.mul_div_cancel_left q hpow
    simp [hdivq, hqodd]
  · intro j hj
    rw [Nat.testBit_to_div_mod]
    have hsplit : x = 2 ^ j * (2 ^ (p - j) * q) := by
      rw [hq, ← Nat.mul_assoc, ← pow_add]
      congr 2
      omega
    have hdivj : x / 2 ^ j = 2 ^ (p - j) * q := by
      rw [hsplit]
      exact Nat.mul_div_cancel_left _ (by positivity)
    have heven : (2 ^ (p - j) * q) % 2 = 0 := by
      have hpj : 1 ≤ p - j := by omega
      have : 2 ^ (p - j) * q = 2 * (2 ^ (p - j - 1) * q) := by
        rw [← Nat.mul_assoc, ← pow_succ']
        congr 2
        omega
      omega
    simp [hdivj, heven]

/-- Claim C2: for every 64-bit word `x ≠ 0`, the 6-iteration mask/shift ladder
over `BASE[i]` and `SHIFT[i]` used by `GetOffset` (test `x & BASE[i]`: if
non-zero mask, else shift by `SHIFT[i]` and add `SHIFT[i]` to the position)
computes exactly the index of the rightmost set bit of `x`. -/
theorem claim_C2_ladder_rightmost_set_bit {x : Nat} (hne : x ≠ 0) (hlt : x < 2 ^ 64) :
    x.testBit (findFirstValidBit x) = true ∧
      ∀ j, j < findFirstValidBit x → x.testBit j = false :=
  trailingZeros_testBit (findFirstValidBit_trailingZeros hne hlt)

theorem claim_C2_witness :
    (40 : Nat) ≠ 0 ∧ (40 : Nat) < 2 ^ 64 ∧ (40 : Nat).testBit (findFirstValidBit 40) = true :=
  ⟨by decide, by norm_num, (claim_C2_ladder_rightmost_set_bit (by decide) (by norm_num)).1⟩

/-- Wrapping 64-bit addition (`idx_t` is a 64-bit unsigned integer). -/
def wadd (a b : Nat) : Nat := (a + b) % 2 ^ 64

/-- Wrapping 64-bit multiplication. -/
def wmul (a b : Nat) : Nat := (a * b) % 2 ^ 64

/-- Wrapping 64-bit subtraction `a - b` for `a < 2 ^ 64` (underflows like C++). -/
def wsub (a b : Nat) : Nat := (a + 2 ^ 64 - b % 2 ^ 64) % 2 ^ 64

/-- State of the constructor's fixed-point loop (`fixed_size_allocator.cpp:21-44`). -/
structure CtorState where
  byte_count : Nat
  bitmask_count : Nat
  available_segments_per_buffer : Nat
deriving Repr, DecidableEq

/-- The body's first step (`fixed_size_allocator.cpp:28-33`): grow the bitmask
by one word when `!bitmask_count || (bitmask_count * bits_per_value) %
available_segments_per_buffer == 0` (`bits_per_value = 64`). -/
def ctorWord (st : CtorState) : CtorState :=
  if st.bitmask_count = 0 ∨
      (wmul st.bitmask_count 64) % st.available_segments_per_buffer = 0 then
    { st with bitmask_count := st.bitmask_count + 1,
              byte_count := wadd st.byte_count validity_size }
  else st

/-- `remaining_segments = MinValue(remaining_bytes / segment_size, bits_per_value)`
(`fixed_size_allocator.cpp:35-36`); the unsigned `Storage::BLOCK_SIZE - byte_count`
can underflow. -/
def ctorSegs (segment_size : Nat) (st1 : CtorState) : Nat :=
  min (wsub BLOCK_SIZE st1.byte_count / segment_size) 64

/-- The constructor's `while (byte_count < Storage::BLOCK_SIZE)` loop
(`fixed_size_allocator.cpp:27-44`), with all `idx_t` arithmetic performed
modulo `2 ^ 64` exactly as in C++. The loop always terminates for the segment
sizes the constructor accepts; `fuel` bounds the iteration count and is chosen
large enough that it is never exhausted for those inputs. -/
def ctorLoop (segment_size : Nat) : Nat → CtorState → CtorState
  | 0, st => st
  | fuel + 1, st =>
    if st.byte_count < BLOCK_SIZE then
      let st1 := ctorWord st
      let remaining_segments := ctorSegs segment_size st1
      if remaining_segments = 0 then st1
      else
        ctorLoop segment_size fuel
          { byte_count := wadd st1.byte_count (wmul remaining_segments segment_size),
            bitmask_count := st1.bitmask_count,
            available_segments_per_buffer :=
              wadd st1.available_segments_per_buffer remaining_segments }
    else st

/-- The allocator-level constants fixed at construction. -/
structure AllocConfig where
  segment_size : Nat
  bitmask_count : Nat
  available_segments_per_buffer : Nat
  bitmask_offset : Nat
deriving Repr, DecidableEq

/-- Fuel for `ctorLoop`: each iteration that recurses strictly increases
`byte_count` (by at least one for `segment_size ≥ 1`), and the loop exits once
`byte_count ≥ BLOCK_SIZE`, so `BLOCK_SIZE + 1` iterations always suffice. -/
def ctorFuel : Nat := BLOCK_SIZE + 1

/-- `FixedSizeAllocator::FixedSizeAllocator` (`fixed_size_allocator.cpp:10-47`):
`none` models the thrown `InternalException` for oversized segments. -/
def construct (segment_size : Nat) : Option AllocConfig :=
  if BLOCK_SIZE - validity_size < segment_size then none
  else
    let st := ctorLoop segment_size ctorFuel ⟨0, 0, 0⟩
    some ⟨segment_size, st.bitmask_count, st.available_segments_per_buffer,
      wmul st.bitmask_count validity_size⟩

/-- `ceil(avail / 64) * 8 + avail * segment_size ≤ BLOCK_SIZE`: the spec's
feasibility bound for a bitmap of `ceil(avail / 64)` words plus `avail`
segments in one block. -/
def SegFeasible (segment_size avail : Nat) : Prop :=
  (avail + 63) / 64 * 8 + avail * segment_size ≤ BLOCK_SIZE

instance (s a : Nat) : Decidable (SegFeasible s a) := by
  unfold SegFeasible
  infer_instance

/-- Claim C1 (refuted: code bug): at `segment_size = 65533` (which is well
below `BLOCK_SIZE - 8`), the constructor's loop sets
`available_segments_per_buffer = 68`, although the maximum `avail` with
`ceil(avail / 64) * 8 + avail * segment_size ≤ BLOCK_SIZE` is `4`. The cause:
after the first round `byte_count = 262140`; the accidental divisibility
`64 % 4 = 0` adds a second bitmask word pushing `byte_count` to `262148 >
BLOCK_SIZE`, and the unsigned `BLOCK_SIZE - byte_count` underflows, so
`remaining_segments` becomes `64` and the loop books 64 further segments that
do not fit in the block. -/
theorem claim_C1_ctor_avail_not_maximal :
    (construct 65533).map AllocConfig.available_segments_per_buffer = some 68 ∧
      ¬ SegFeasible 65533 68 ∧ SegFeasible 65533 4 ∧
      ∀ a, SegFeasible 65533 a → a ≤ 4 := by
  refine ⟨by decide, by decide, by decide, ?_⟩
  intro a ha
  unfold SegFeasible BLOCK_SIZE at ha
  omega

theorem wadd_small {a b : Nat} (h : a + b < 2 ^ 64) : wadd a b = a + b := by
  unfold wadd
  omega

theorem wmul_small {a b : Nat} (h : a * b < 2 ^ 64) : wmul a b = a * b := by
  unfold wmul
  omega

theorem wsub_of_le {a b : Nat} (hb : b ≤ a) (ha : a < 2 ^ 64) : wsub a b = a - b := by
  unfold wsub
  omega

theorem wsub_of_gt {a b : Nat} (hab : a < b) (hb : b < 2 ^ 64) : wsub a b = 2 ^ 64 - (b - a) := by
  unfold wsub
  omega

/-- Invariant of the constructor loop at the `while` guard, for a fixed
`segment_size` `s` in the accepted range: exact byte bookkeeping, the bitmap
addresses at least `avail` segments, and after a partial round (`avail` not a
multiple of 64) no further whole segment fits. -/
def CtorInv (s : Nat) (st : CtorState) : Prop :=
  st.byte_count = 8 * st.bitmask_count + st.available_segments_per_buffer * s
  ∧ st.available_segments_per_buffer ≤ 64 * st.bitmask_count
  ∧ st.byte_count ≤ BLOCK_SIZE + 8 + 64 * s
  ∧ (64 ∣ st.available_segments_per_buffer →
      st.available_segments_per_buffer = 64 * st.bitmask_count ∧ st.byte_count ≤ BLOCK_SIZE)
  ∧ (¬ 64 ∣ st.available_segments_per_buffer → BLOCK_SIZE < st.byte_count + s)

/-- No reachable guard state has `byte_count = BLOCK_SIZE` together with a
bitmap-exact `avail = 64 * bitmask_count`: that would force
`8 * bitmask_count * (1 + 8 * s) = 2 ^ 18`, impossible since `1 + 8 * s` is an
odd factor greater than 1. -/
theorem ctor_no_exact_fit {s k : Nat} (hs1 : 1 ≤ s)
    (h : 8 * k + 64 * k * s = BLOCK_SIZE) : False := by
  have hfact : 8 * (k * (1 + 8 * s)) = BLOCK_SIZE := by
    rw [← h]
    ring
  have hk : k * (1 + 8 * s) = 32768 := by
    unfold BLOCK_SIZE at hfact
    omega
  have hdvd : (1 + 8 * s) ∣ 32768 := ⟨k, by rw [← hk]; ring⟩
  have hpow : (32768 : Nat) = 2 ^ 15 := by norm_num
  rw [hpow] at hdvd
  have hodd : ¬ (2 : Nat) ∣ (1 + 8 * s) := by omega
  have hcop : Nat.Coprime (1 + 8 * s) 2 :=
    (Nat.Prime.coprime_iff_not_dvd Nat.prime_two |>.mpr hodd).symm
  have := Nat.Coprime.eq_one_of_dvd (Nat.Coprime.pow_right 15 hcop) hdvd
  omega

theorem ctorLoop_zero (s : Nat) (st : CtorState) : ctorLoop s 0 st = st := rfl

theorem ctorLoop_succ (s fuel : Nat) (st : CtorState) :
    ctorLoop s (fuel + 1) st =
      if st.byte_count < BLOCK_SIZE then
        if ctorSegs s (ctorWord st) = 0 then ctorWord st
        else
          ctorLoop s fuel
            { byte_count := wadd (ctorWord st).byte_count (wmul (ctorSegs s (ctorWord st)) s),
              bitmask_count := (ctorWord st).bitmask_count,
              available_segments_per_buffer :=
                wadd (ctorWord st).available_segments_per_buffer (ctorSegs s (ctorWord st)) }
      else st := rfl

/-- The exit facts the rest of the development needs: any state satisfying
`CtorInv` that the loop leaves (with enough fuel) has `1 ≤ avail < 64 *
bitmask_count`, together with the exact byte bookkeeping. -/
theorem ctorLoop_exit (s : Nat) (hs1 : 1 ≤ s) (hs2 : s ≤ BLOCK_SIZE - 8) :
    ∀ fuel st, CtorInv s st → BLOCK_SIZE ≤ st.byte_count + fuel →
      1 ≤ (ctorLoop s fuel st).available_segments_per_buffer ∧
      (ctorLoop s fuel st).available_segments_per_buffer <
        64 * (ctorLoop s fuel st).bitmask_count ∧
      (ctorLoop s fuel st).byte_count =
        8 * (ctorLoop s fuel st).bitmask_count +
          (ctorLoop s fuel st).available_segments_per_buffer * s ∧
      (ctorLoop s fuel st).byte_count ≤ BLOCK_SIZE + 16 + 64 * s := by
  have hB : BLOCK_SIZE = 262144 := rfl
  have hsB : s ≤ 262136 := by
    have h8 : BLOCK_SIZE - 8 = 262136 := rfl
    omega
  -- analysis of an exit state (the `while` guard fails or fuel runs out there)
  have hexit : ∀ st : CtorState, CtorInv s st → BLOCK_SIZE ≤ st.byte_count →
      1 ≤ st.available_segments_per_buffer ∧
      st.available_segments_per_buffer < 64 * st.bitmask_count ∧
      st.byte_count = 8 * st.bitmask_count + st.available_segments_per_buffer * s ∧
      st.byte_count ≤ BLOCK_SIZE + 16 + 64 * s := by
    intro st hinv hge
    obtain ⟨h1, h2, h3, h4, h5⟩ := hinv
    by_cases hdvd : 64 ∣ st.available_segments_per_buffer
    · exfalso
      obtain ⟨heq, hle⟩ := h4 hdvd
      have hbyteeq : st.byte_count = BLOCK_SIZE := by omega
      apply ctor_no_exact_fit hs1 (k := st.bitmask_count)
      rw [← hbyteeq, h1, heq]
    · have hge1 : 1 ≤ st.available_segments_per_buffer := by
        rcases Nat.eq_zero_or_pos st.available_segments_per_buffer with h0 | hp
        · exact absurd (h0 ▸ Nat.dvd_zero 64) hdvd
        · exact hp
      have hne : st.available_segments_per_buffer ≠ 64 * st.bitmask_count := by
        intro hc
        exact hdvd ⟨st.bitmask_count, hc⟩
      exact ⟨hge1, by omega, h1, by omega⟩
  intro fuel
  induction fuel with
  | zero =>
    intro st hinv hfuel
    rw [ctorLoop_zero]
    exact hexit st hinv (by omega)
  | succ fuel ih =>
    intro st hinv hfuel
    by_cases hguard : st.byte_count < BLOCK_SIZE
    case neg =>
      rw [ctorLoop_succ, if_neg hguard]
      exact hexit st hinv (by omega)
    case pos =>
      obtain ⟨b, k, a⟩ := st
      obtain ⟨h1, h2, h3, h4, h5⟩ := hinv
      simp only at h1 h2 h3 h4 h5 hguard hfuel
      -- smallness: every wrapped operation below acts on small numbers
      have hb_small : b ≤ 17039496 := by
        have h64 : 64 * s ≤ 64 * 262136 := by omega
        omega
      have hk_small : k ≤ 2130000 := by omega
      have ha_small : a ≤ 17039496 := by
        have hle : a * 1 ≤ a * s := Nat.mul_le_mul_left a hs1
        omega
      rw [ctorLoop_succ, if_pos hguard]
      by_cases hcond : (⟨b, k, a⟩ : CtorState).bitmask_count = 0 ∨
          (wmul (⟨b, k, a⟩ : CtorState).bitmask_count 64) %
            (⟨b, k, a⟩ : CtorState).available_segments_per_buffer = 0
      case neg =>
        -- no bitmask word added: the invariant forces this round to add nothing
        have hW : ctorWord ⟨b, k, a⟩ = ⟨b, k, a⟩ := by
          rw [ctorWord, if_neg hcond]
        simp only at hcond
        push_neg at hcond
        obtain ⟨hk0, hmod⟩ := hcond
        have hwmul : wmul k 64 = k * 64 := wmul_small (by omega)
        rw [hwmul] at hmod
        have hnd : ¬ 64 ∣ a := by
          intro hdvd
          obtain ⟨heq, -⟩ := h4 hdvd
          rcases Nat.eq_zero_or_pos k with h0 | hkpos
          · exact hk0 h0
          · apply hmod
            have hka : k * 64 = a := by omega
            rw [hka, Nat.mod_self]
        have hroom := h5 hnd
        have hq0 : ctorSegs s (ctorWord ⟨b, k, a⟩) = 0 := by
          rw [hW, ctorSegs]
          simp only
          have hsub : wsub BLOCK_SIZE b = BLOCK_SIZE - b := wsub_of_le (by omega) (by omega)
          rw [hsub]
          have hlt : (BLOCK_SIZE - b) / s = 0 := Nat.div_eq_of_lt (by omega)
          rw [hlt]
          rfl
        rw [if_pos hq0, hW]
        have ha1 : 1 ≤ a := by
          rcases Nat.eq_zero_or_pos a with h0 | hp
          · exact absurd (h0 ▸ Nat.dvd_zero 64) hnd
          · exact hp
        have hna : a ≠ 64 * k := fun hc => hnd ⟨k, hc⟩
        refine ⟨ha1, ?_, ?_, ?_⟩
        · show a < 64 * k
          omega
        · show b = 8 * k + a * s
          omega
        · show b ≤ BLOCK_SIZE + 16 + 64 * s
          omega
      case pos =>
        have hW : ctorWord ⟨b, k, a⟩ = ⟨b + 8, k + 1, a⟩ := by
          rw [ctorWord, if_pos hcond]
          have h8 : wadd b validity_size = b + 8 := by
            have hv : validity_size = 8 := rfl
            rw [hv, wadd_small (by omega)]
          simp only [h8]
        rw [hW]
        clear hcond hexit
        by_cases hover : BLOCK_SIZE < b + 8
        case pos =>
          -- unsigned underflow of BLOCK_SIZE - byte_count: 64 phantom segments
          have hrem : wsub BLOCK_SIZE (b + 8) = 2 ^ 64 - (b + 8 - BLOCK_SIZE) :=
            wsub_of_gt (by omega) (by omega)
          have hq : ctorSegs s ⟨b + 8, k + 1, a⟩ = 64 := by
            rw [ctorSegs]
            simp only [hrem]
            have h64 : 64 ≤ (2 ^ 64 - (b + 8 - BLOCK_SIZE)) / s := by
              rw [Nat.le_div_iff_mul_le (by omega)]
              have hss : 64 * s ≤ 64 * 262136 := by omega
              omega
            exact min_eq_right h64
          rw [hq]
          have hqs : wmul 64 s = 64 * s := wmul_small (by omega)
          have hbyte : wadd (b + 8) (wmul 64 s) = b + 8 + 64 * s := by
            rw [hqs, wadd_small (by omega)]
          have havail : wadd a 64 = a + 64 := wadd_small (by omega)
          rw [if_neg (by omega)]
          simp only [hbyte, havail]
          -- byte = 8k + a*s is a multiple of 8 when 64 ∣ a, which contradicts
          -- BLOCK_SIZE - 8 < byte < BLOCK_SIZE
          have hnd : ¬ 64 ∣ a := by
            intro hdvd
            obtain ⟨heq, hle⟩ := h4 hdvd
            have h8d : 8 ∣ b := by
              refine ⟨k + 8 * k * s, ?_⟩
              rw [h1, heq]
              ring
            obtain ⟨t, ht⟩ := h8d
            omega
          apply ih
          · refine ⟨?_, ?_, ?_, ?_, ?_⟩
            · show b + 8 + 64 * s = 8 * (k + 1) + (a + 64) * s
              rw [h1]
              ring
            · show a + 64 ≤ 64 * (k + 1)
              omega
            · show b + 8 + 64 * s ≤ BLOCK_SIZE + 8 + 64 * s
              omega
            · intro hdvd
              have hdvd2 : (64 : Nat) ∣ a + 64 := hdvd
              exact absurd (by omega : (64 : Nat) ∣ a) hnd
            · intro _
              show BLOCK_SIZE < b + 8 + 64 * s + s
              omega
          · show BLOCK_SIZE ≤ b + 8 + 64 * s + fuel
            omega
        case neg =>
          -- no underflow: remaining_bytes = BLOCK_SIZE - byte_count - 8
          have hrem : wsub BLOCK_SIZE (b + 8) = BLOCK_SIZE - (b + 8) :=
            wsub_of_le (by omega) (by omega)
          have hqdef : ctorSegs s ⟨b + 8, k + 1, a⟩ =
              min ((BLOCK_SIZE - (b + 8)) / s) 64 := by
            rw [ctorSegs]
            simp only [hrem]
          by_cases hq0 : ctorSegs s ⟨b + 8, k + 1, a⟩ = 0
          case pos =>
            rw [if_pos hq0]
            -- break: this is an exit with one extra bitmask word
            have ha1 : 1 ≤ a := by
              rcases Nat.eq_zero_or_pos a with h0 | hp
              · exfalso
                obtain ⟨heq, -⟩ := h4 (h0 ▸ Nat.dvd_zero 64)
                have hk0 : k = 0 := by omega
                have hb0 : b = 0 := by
                  rw [h1, hk0, h0]
                  ring
                rw [hqdef] at hq0
                have hdiv1 : 1 ≤ (BLOCK_SIZE - (b + 8)) / s := by
                  rw [Nat.le_div_iff_mul_le (by omega)]
                  omega
                omega
              · exact hp
            refine ⟨ha1, ?_, ?_, ?_⟩
            · show a < 64 * (k + 1)
              omega
            · show b + 8 = 8 * (k + 1) + a * s
              rw [h1]
              ring
            · show b + 8 ≤ BLOCK_SIZE + 16 + 64 * s
              omega
          case neg =>
            rw [if_neg hq0]
            set q := ctorSegs s ⟨b + 8, k + 1, a⟩ with hqset
            have hq64 : q ≤ 64 := hqdef ▸ Nat.min_le_right _ 64
            have hq1 : 1 ≤ q := by omega
            have hqs : wmul q s = q * s := by
              apply wmul_small
              have : q * s ≤ 64 * s := Nat.mul_le_mul_right s hq64
              have h64 : 64 * s ≤ 64 * 262136 := by omega
              omega
            have hqs_le64 : q * s ≤ 64 * s := Nat.mul_le_mul_right s hq64
            have h64s : 64 * s ≤ 64 * 262136 := by omega
            have hbyte : wadd (b + 8) (wmul q s) = b + 8 + q * s := by
              rw [hqs]
              apply wadd_small
              omega
            have havail : wadd a q = a + q := wadd_small (by omega)
            simp only [hbyte, havail]
            have hs_le_qs : s ≤ q * s := by
              have := Nat.mul_le_mul_right s hq1
              omega
            -- q * s never exceeds the remaining bytes
            have hq_le_div : q ≤ (BLOCK_SIZE - (b + 8)) / s :=
              hqdef ▸ Nat.min_le_left _ 64
            have hqs_rem : q * s ≤ BLOCK_SIZE - (b + 8) := by
              calc q * s ≤ (BLOCK_SIZE - (b + 8)) / s * s :=
                    Nat.mul_le_mul_right s hq_le_div
                _ ≤ BLOCK_SIZE - (b + 8) := Nat.div_mul_le_self _ s
            apply ih
            · constructor
              · show b + 8 + q * s = 8 * (k + 1) + (a + q) * s
                rw [h1]
                ring
              · constructor
                · show a + q ≤ 64 * (k + 1)
                  omega
                constructor
                · show b + 8 + q * s ≤ BLOCK_SIZE + 8 + 64 * s
                  omega
                constructor
                · -- 64 ∣ a + q: only the capped q = 64 case survives
                  intro hdvd
                  have hdvd2 : (64 : Nat) ∣ a + q := hdvd
                  show a + q = 64 * (k + 1) ∧ b + 8 + q * s ≤ BLOCK_SIZE
                  by_cases hqcap : q = 64
                  · have hnda : 64 ∣ a := by omega
                    obtain ⟨heq, hle⟩ := h4 hnda
                    refine ⟨by omega, ?_⟩
                    have hmin : (BLOCK_SIZE - (b + 8)) / s ⊓ 64 = 64 := by
                      rw [← hqdef, hqcap]
                    have h64div : 64 ≤ (BLOCK_SIZE - (b + 8)) / s := min_eq_right_iff.mp hmin
                    have h64s_rem : 64 * s ≤ BLOCK_SIZE - (b + 8) := by
                      rw [Nat.le_div_iff_mul_le (by omega)] at h64div
                      omega
                    omega
                  · exfalso
                    by_cases hda : 64 ∣ a
                    · omega
                    · have hroom := h5 hda
                      have hqv : q = (BLOCK_SIZE - (b + 8)) / s := by
                        rcases le_total ((BLOCK_SIZE - (b + 8)) / s) 64 with hle | hge
                        · rw [hqdef]
                          exact min_eq_left hle
                        · exact absurd (by rw [hqdef]; exact min_eq_right hge) hqcap
                      have : (BLOCK_SIZE - (b + 8)) / s = 0 := Nat.div_eq_of_lt (by omega)
                      omega
                · intro hdvd
                  have hdvd2 : ¬ (64 : Nat) ∣ a + q := hdvd
                  show BLOCK_SIZE < b + 8 + q * s + s
                  by_cases hqcap : q = 64
                  · have hnda : ¬ 64 ∣ a := by
                      intro hda
                      exact hdvd2 (by omega)
                    have := h5 hnda
                    omega
                  · by_cases hda : 64 ∣ a
                    · -- partial final round: B - byte' = (rem mod s) < s
                      have hqv : q = (BLOCK_SIZE - (b + 8)) / s := by
                        rcases le_total ((BLOCK_SIZE - (b + 8)) / s) 64 with hle | hge
                        · rw [hqdef]
                          exact min_eq_left hle
                        · exact absurd (by rw [hqdef]; exact min_eq_right hge) hqcap
                      have hdm := Nat.div_add_mod (BLOCK_SIZE - (b + 8)) s
                      have hmlt : (BLOCK_SIZE - (b + 8)) % s < s := Nat.mod_lt _ (by omega)
                      have hcomm : q * s = s * ((BLOCK_SIZE - (b + 8)) / s) := by
                        rw [hqv, Nat.mul_comm]
                      omega
                    · have := h5 hda
                      omega
            · show BLOCK_SIZE ≤ b + 8 + q * s + fuel
              omega

theorem construct_props (s : Nat) (hs1 : 1 ≤ s) (hs2 : s ≤ BLOCK_SIZE - validity_size) :
    ∃ cfg, construct s = some cfg ∧ cfg.segment_size = s ∧
      1 ≤ cfg.available_segments_per_buffer ∧
      cfg.available_segments_per_buffer < 64 * cfg.bitmask_count ∧
      cfg.bitmask_offset = cfg.bitmask_count * 8 := by
  have hv : validity_size = 8 := rfl
  have hinv0 : CtorInv s ⟨0, 0, 0⟩ := by
    refine ⟨by simp, by simp, by simp, fun _ => ⟨by simp, by simp⟩, fun h => ?_⟩
    exact absurd (Nat.dvd_zero 64) h
  have hfuel0 : BLOCK_SIZE ≤ (⟨0, 0, 0⟩ : CtorState).byte_count + ctorFuel := by
    show BLOCK_SIZE ≤ 0 + ctorFuel
    unfold ctorFuel
    omega
  have hloop := ctorLoop_exit s hs1 (by omega) ctorFuel ⟨0, 0, 0⟩ hinv0 hfuel0
  obtain ⟨hge1, hlt, hbk, hbd⟩ := hloop
  refine ⟨⟨s, (ctorLoop s ctorFuel ⟨0, 0, 0⟩).bitmask_count,
    (ctorLoop s ctorFuel ⟨0, 0, 0⟩).available_segments_per_buffer,
    wmul (ctorLoop s ctorFuel ⟨0, 0, 0⟩).bitmask_count validity_size⟩,
    ?_, rfl, hge1, hlt, ?_⟩
  · rw [construct, if_neg (by omega)]
  · show wmul (ctorLoop s ctorFuel ⟨0, 0, 0⟩).bitmask_count validity_size = _
    rw [hv, wmul_small]
    have h64 : 64 * s ≤ 64 * 262136 := by
      have h8 : BLOCK_SIZE - 8 = 262136 := rfl
      omega
    have hB : BLOCK_SIZE = 262144 := rfl
    omega


/-- Modelled from the spec: the validity-bitmap view (§4.2) — the
`ValidityMask` class is declared outside these sources. The bitmap is the list
of `bitmask_count` 64-bit words at the head of a buffer; bit `i` lives in word
`i / 64` at position `i % 64`, and bit set means slot free. `RowIsValid`. -/
def maskTest (ws : List Nat) (i : Nat) : Bool := (ws.getD (i / 64) 0).testBit (i % 64)

/-- Modelled from the spec: `SetInvalid` — clear bit `i` (mark slot used). -/
def maskClear (ws : List Nat) (i : Nat) : List Nat :=
  ws.set (i / 64) (ws.getD (i / 64) 0 &&& ((2 ^ 64 - 1) ^^^ 1 <<< (i % 64)))

/-- Modelled from the spec: `SetValid` — set bit `i` (mark slot free). -/
def maskSet (ws : List Nat) (i : Nat) : List Nat :=
  ws.set (i / 64) (ws.getD (i / 64) 0 ||| 1 <<< (i % 64))

/-- Modelled from the spec: `set_all_valid(M)` — "set bits 0..M-1, clear the
rest" (§4.2) — laid out over `bitmask_count` words. -/
def setAllValid (avail bitmask_count : Nat) : List Nat :=
  (List.range bitmask_count).map fun w =>
    if 64 * (w + 1) ≤ avail then 2 ^ 64 - 1
    else if avail ≤ 64 * w then 0
    else 2 ^ (avail - 64 * w) - 1

/-- Modelled from the spec: a fixed-size buffer (§4.3) — its class lives
outside these sources. `bitmask` is the word list at the block's head, `data`
holds one abstract value per slot (standing for the `segment_size` payload
bytes), `segment_count` counts allocated slots. A fresh buffer starts with one
(arbitrary) value per addressable slot; a restored buffer carries only the
persisted prefix, so its `data` may be shorter. -/
structure FixedSizeBuffer where
  bitmask : List Nat
  data : List Nat
  segment_count : Nat
deriving Repr, DecidableEq

/-- Modelled from the spec: the 64-bit `IndexPointer` packs a buffer id and an
offset; the all-zero value is the distinguished null pointer. The class is
declared outside these sources. -/
structure IndexPointer where
  buffer_id : Nat
  offset : Nat
deriving Repr, DecidableEq

/-- The pointer whose packed representation is all-zero bits. -/
def IndexPointer.nullPtr : IndexPointer := ⟨0, 0⟩

/-- Insert into a key-sorted association list (`std::map::insert`: an existing
key is left unchanged). -/
def mapInsert {α : Type} : List (Nat × α) → Nat → α → List (Nat × α)
  | [], k, v => [(k, v)]
  | (k0, v0) :: rest, k, v =>
    if k < k0 then (k, v) :: (k0, v0) :: rest
    else if k = k0 then (k0, v0) :: rest
    else (k0, v0) :: mapInsert rest k v

/-- `map::find`. -/
def mapFind {α : Type} : List (Nat × α) → Nat → Option α
  | [], _ => none
  | (k0, v0) :: rest, k => if k = k0 then some v0 else mapFind rest k

/-- Update the value stored at an existing key (mutation through the iterator
returned by `find`). -/
def mapSet {α : Type} : List (Nat × α) → Nat → α → List (Nat × α)
  | [], _, _ => []
  | (k0, v0) :: rest, k, v => if k = k0 then (k0, v) :: rest else (k0, v0) :: mapSet rest k v

/-- Insert into a sorted id set (`set::insert`). -/
def setInsert : List Nat → Nat → List Nat
  | [], k => [k]
  | k0 :: rest, k =>
    if k < k0 then k :: k0 :: rest
    else if k = k0 then k0 :: rest
    else k0 :: setInsert rest k

/-- `set::erase`. -/
def setErase : List Nat → Nat → List Nat
  | [], _ => []
  | k0 :: rest, k => if k = k0 then rest else k0 :: setErase rest k

/-- The allocator state. `buffers` models `map<idx_t, FixedSizeBuffer>` as a
key-sorted association list; `buffers_with_free_space` is kept sorted and its
head models `*begin()` (the spec's reference choice: the minimum id). -/
structure Alloc where
  segment_size : Nat
  available_segments_per_buffer : Nat
  bitmask_count : Nat
  bitmask_offset : Nat
  buffers : List (Nat × FixedSizeBuffer)
  buffers_with_free_space : List Nat
  total_segment_count : Nat
deriving Repr, DecidableEq

/-- A freshly constructed allocator (no buffers yet). -/
def initAlloc (cfg : AllocConfig) : Alloc :=
  ⟨cfg.segment_size, cfg.available_segments_per_buffer, cfg.bitmask_count,
    cfg.bitmask_offset, [], [], 0⟩

/-- The decrement loop of `GetAvailableBufferId`
(`fixed_size_allocator.cpp:396-403`): start at `buffers.size()` and decrement
while the id is present; `none` models the failing `D_ASSERT(buffer_id > 0)`
when id 0 is reached while still present. -/
def gabLoop (buffers : List (Nat × FixedSizeBuffer)) : Nat → Option Nat
  | 0 => if (mapFind buffers 0).isSome then none else some 0
  | id + 1 => if (mapFind buffers (id + 1)).isSome then gabLoop buffers id else some (id + 1)

def GetAvailableBufferId (buffers : List (Nat × FixedSizeBuffer)) : Option Nat :=
  gabLoop buffers buffers.length

/-- The slow path of `GetOffset` (`fixed_size_allocator.cpp:306-339`): scan
words from index 0, skip zero words, and in the first non-zero word clear and
return its rightmost set bit; falling off the end models the thrown
`InternalException`. `idx` is the current word index, `n` the words left. -/
def gofLoop (ws : List Nat) : Nat → Nat → Option (Nat × List Nat)
  | _, 0 => none
  | idx, n + 1 =>
    let entry := ws.getD idx 0
    if entry = 0 then gofLoop ws (idx + 1) n
    else
      let first_valid_bit := findFirstValidBit entry
      let off := idx * 64 + first_valid_bit
      some (off, maskClear ws off)

/-- `FixedSizeAllocator::GetOffset` (`fixed_size_allocator.cpp:296-340`):
fast path first (bit at `segment_count` still set), then the word scan.
Returns the offset and the updated bitmask. -/
def GetOffset (bitmask_count : Nat) (ws : List Nat) (segment_count : Nat) :
    Option (Nat × List Nat) :=
  if maskTest ws segment_count then some (segment_count, maskClear ws segment_count)
  else gofLoop ws 0 bitmask_count

/-- First half of `FixedSizeAllocator::New` (`fixed_size_allocator.cpp:51-65`):
when `buffers_with_free_space` is empty, create a fresh buffer under an unused
id and set its bitmap with `SetAllValid(available_segments_per_buffer)`. -/
def newEnsureBuffer (al : Alloc) : Option Alloc :=
  if al.buffers_with_free_space.isEmpty then
    match GetAvailableBufferId al.buffers with
    | none => none
    | some buffer_id =>
      let new_buffer : FixedSizeBuffer :=
        ⟨setAllValid al.available_segments_per_buffer al.bitmask_count,
          List.replicate al.available_segments_per_buffer 0, 0⟩
      some { al with buffers := mapInsert al.buffers buffer_id new_buffer,
                     buffers_with_free_space :=
                       setInsert al.buffers_with_free_space buffer_id }
  else some al

/-- Second half of `FixedSizeAllocator::New` (`fixed_size_allocator.cpp:67-83`):
take `*buffers_with_free_space.begin()`, pick an offset through `GetOffset`,
bump the counters, and drop the buffer from the free list when it fills up. -/
def newFromFree (al1 : Alloc) : Option (IndexPointer × Alloc) :=
  match al1.buffers_with_free_space with
  | [] => none
  | buffer_id :: _ =>
    match mapFind al1.buffers buffer_id with
    | none => none
    | some buffer =>
      match GetOffset al1.bitmask_count buffer.bitmask buffer.segment_count with
      | none => none
      | some (offset, ws) =>
        let buffer1 : FixedSizeBuffer :=
          { buffer with bitmask := ws, segment_count := buffer.segment_count + 1 }
        let al2 := { al1 with
          buffers := mapSet al1.buffers buffer_id buffer1,
          total_segment_count := al1.total_segment_count + 1 }
        let al3 :=
          if buffer1.segment_count = al2.available_segments_per_buffer then
            { al2 with buffers_with_free_space :=
                setErase al2.buffers_with_free_space buffer_id }
          else al2
        some (⟨buffer_id, offset⟩, al3)

/-- `FixedSizeAllocator::New` (`fixed_size_allocator.cpp:49-84`). -/
def New (al : Alloc) : Option (IndexPointer × Alloc) :=
  (newEnsureBuffer al).bind newFromFree

/-- `FixedSizeAllocator::Free` (`fixed_size_allocator.cpp:86-106`); each
`none` models a failing `D_ASSERT` (missing buffer, double free, zero
counters), in source order. -/
def Free (al : Alloc) (p : IndexPointer) : Option Alloc :=
  match mapFind al.buffers p.buffer_id with
  | none => none
  | some buffer =>
    if maskTest buffer.bitmask p.offset then none
    else
      let ws := maskSet buffer.bitmask p.offset
      if al.total_segment_count = 0 then none
      else if buffer.segment_count = 0 then none
      else
        some { al with
          buffers := mapSet al.buffers p.buffer_id
            ({ buffer with bitmask := ws, segment_count := buffer.segment_count - 1 }),
          buffers_with_free_space := setInsert al.buffers_with_free_space p.buffer_id,
          total_segment_count := al.total_segment_count - 1 }

/-- A caller writing a slot's payload through the raw address that `Get(ptr)`
returns (the allocator itself never touches slot contents): update the
abstract slot value. An out-of-range write leaves the state unchanged, like
`List.set`. -/
def WriteSlot (al : Alloc) (p : IndexPointer) (v : Nat) : Alloc :=
  match mapFind al.buffers p.buffer_id with
  | none => al
  | some buffer =>
    let buffer1 : FixedSizeBuffer := { buffer with data := buffer.data.set p.offset v }
    { al with buffers := mapSet al.buffers p.buffer_id buffer1 }

/-- One operation of the caller-visible mutation interface. -/
inductive AllocOp where
  | opNew : AllocOp
  | opFree : Nat → Nat → AllocOp
  | opWrite : Nat → Nat → Nat → AllocOp
deriving Repr, DecidableEq

def runOp (al : Alloc) : AllocOp → Option Alloc
  | .opNew => (New al).map Prod.snd
  | .opFree b off => Free al ⟨b, off⟩
  | .opWrite b off v => some (WriteSlot al ⟨b, off⟩ v)

def runOps (al : Alloc) : List AllocOp → Option Alloc
  | [] => some al
  | op :: rest =>
    match runOp al op with
    | none => none
    | some al1 => runOps al1 rest

/-- `n` consecutive `New` calls, collecting the returned pointers. -/
def runNews (al : Alloc) : Nat → Option (List IndexPointer × Alloc)
  | 0 => some ([], al)
  | n + 1 =>
    match New al with
    | none => none
    | some (p, al1) => (runNews al1 n).map fun pr => (p :: pr.1, pr.2)

theorem maskTest_setAllValid_zero {avail bc : Nat} (ha : 1 ≤ avail) (hb : 1 ≤ bc) :
    maskTest (setAllValid avail bc) 0 = true := by
  obtain ⟨m, rfl⟩ : ∃ m, bc = m + 1 := ⟨bc - 1, by omega⟩
  unfold maskTest setAllValid
  rw [List.range_succ_eq_map]
  simp only [List.map_cons]
  show (if 64 * (0 + 1) ≤ avail then 2 ^ 64 - 1
      else if avail ≤ 64 * 0 then 0 else 2 ^ (avail - 64 * 0) - 1).testBit 0 = true
  by_cases h64 : 64 * (0 + 1) ≤ avail
  · rw [if_pos h64, Nat.testBit_two_pow_sub_one]
    norm_num
  · rw [if_neg h64, if_neg (by omega), Nat.testBit_two_pow_sub_one]
    simp only [decide_eq_true_eq]
    omega

/-- Claim C10: on a freshly constructed allocator with no buffers, the first
`New` returns the pointer with `buffer_id = 0` and `offset = 0` — a live
pointer whose buffer-id and offset fields coincide with those of the all-zero
null pointer. -/
theorem claim_C10_first_new_is_null_fields {s : Nat} (hs1 : 1 ≤ s)
    (hs2 : s ≤ BLOCK_SIZE - validity_size) {cfg : AllocConfig}
    (hcfg : construct s = some cfg) :
    (New (initAlloc cfg)).map Prod.fst = some IndexPointer.nullPtr := by
  obtain ⟨cfg2, hc2, hseg, hge1, hlt, hoff⟩ := construct_props s hs1 hs2
  rw [hcfg] at hc2
  obtain rfl : cfg = cfg2 := Option.some.inj hc2
  have hbc1 : 1 ≤ cfg.bitmask_count := by
    by_contra hc
    omega
  have hmask := maskTest_setAllValid_zero hge1 hbc1
  rw [New, newEnsureBuffer]
  simp only [initAlloc, List.isEmpty, GetAvailableBufferId, List.length_nil, gabLoop, mapFind,
    Option.isSome_none, Bool.false_eq_true, if_false, mapInsert, setInsert, if_true,
    Option.bind_some, Option.some_bind]
  rw [newFromFree]
  simp only [mapFind, if_pos rfl]
  simp only [if_true]
  rw [GetOffset]
  simp only [hmask, if_true, if_pos rfl]
  rfl

/-- The concrete scenario behind claim C3: a fresh allocator with
`segment_size = 16`; ten `New` calls, `Free` of the offset-4 pointer, then two
more `New` calls. Returns the first ten pointers, the eleventh and twelfth
pointers, and the number of buffers after the first ten allocations. -/
def c3Run : Option (List IndexPointer × IndexPointer × IndexPointer × Nat) := do
  let cfg ← construct 16
  let pr ← runNews (initAlloc cfg) 10
  let alF ← Free pr.2 ⟨0, 4⟩
  let r11 ← New alF
  let r12 ← New r11.2
  pure (pr.1, r11.1, r12.1, pr.2.buffers.length)

set_option maxRecDepth 100000 in
/-- Claim C3, counterexample: after the `Free` of offset 4, the next `New`
returns offset 4 and the one after returns offset 10 — not 10 then 4 as the
claim states. (`Free` decrements `segment_count` to 9; bit 9 is clear, so the
fast path fails and the slow path reclaims bit 4 first.) -/
theorem claim_C3_counterexample :
    (c3Run.map fun r => (r.2.1.offset, r.2.2.1.offset)) = some (4, 10) ∧
      ((4 : Nat), (10 : Nat)) ≠ (10, 4) := by
  constructor
  · decide
  · decide

set_option maxRecDepth 100000 in
/-- Claim C3 (amended): ten `New` calls return offsets 0 through 9 in a single
buffer with id 0; after `Free` of the offset-4 pointer, the next `New` returns
offset 4 (slow path: scan for the rightmost set bit, since `segment_count` is
now 9 and bit 9 is clear), and the `New` after that returns offset 10 (fast
path: bit at the restored `segment_count = 10` is still set). -/
theorem claim_C3_amended_sequence :
    c3Run = some ((List.range 10).map fun i => ⟨0, i⟩, ⟨0, 4⟩, ⟨0, 10⟩, 1) := by
  decide


theorem claim_C10_witness :
    construct 8000 = some ⟨8000, 2, 32, 16⟩ ∧
      (New (initAlloc ⟨8000, 2, 32, 16⟩)).map Prod.fst = some IndexPointer.nullPtr :=
  ⟨by decide,
    @claim_C10_first_new_is_null_fields 8000 (by decide) (by decide) ⟨8000, 2, 32, 16⟩
      (by decide)⟩

/-- The `std::map` representation invariant: keys strictly increase. -/
def MapSorted {α : Type} (m : List (Nat × α)) : Prop :=
  List.Chain' (fun x y => x.1 < y.1) m

/-- The `std::set` representation invariant: elements strictly increase. -/
def SetSorted (l : List Nat) : Prop := List.Chain' (fun x y => x < y) l

instance {α : Type} (m : List (Nat × α)) : Decidable (MapSorted m) :=
  inferInstanceAs (Decidable (List.Chain' (fun x y : Nat × α => x.1 < y.1) m))

instance (l : List Nat) : Decidable (SetSorted l) :=
  inferInstanceAs (Decidable (List.Chain' (fun x y : Nat => x < y) l))

theorem mapFind_isSome_iff {α : Type} (m : List (Nat × α)) (k : Nat) :
    (mapFind m k).isSome = true ↔ k ∈ m.map Prod.fst := by
  induction m with
  | nil => simp [mapFind]
  | cons kv rest ih =>
    obtain ⟨k0, v0⟩ := kv
    simp only [mapFind, List.map_cons, List.mem_cons]
    by_cases hk : k = k0
    · simp [hk]
    · simp [hk, ih]

theorem gabLoop_some_spec {bufs : List (Nat × FixedSizeBuffer)} :
    ∀ n i, gabLoop bufs n = some i →
      mapFind bufs i = none ∧ i ≤ n ∧
        ∀ j, i < j → j ≤ n → (mapFind bufs j).isSome := by
  intro n
  induction n with
  | zero =>
    intro i h
    rw [gabLoop] at h
    by_cases hp : (mapFind bufs 0).isSome
    · rw [if_pos hp] at h
      exact absurd h (by simp)
    · rw [if_neg hp] at h
      obtain rfl : 0 = i := Option.some.inj h
      exact ⟨Option.not_isSome_iff_eq_none.mp hp, Nat.le_refl 0, fun j hj1 hj2 => by omega⟩
  | succ n ih =>
    intro i h
    rw [gabLoop] at h
    by_cases hp : (mapFind bufs (n + 1)).isSome
    · rw [if_pos hp] at h
      obtain ⟨hnone, hle, hall⟩ := ih i h
      refine ⟨hnone, by omega, fun j hj1 hj2 => ?_⟩
      rcases Nat.lt_or_ge j (n + 1) with hlt | hge
      · exact hall j hj1 (by omega)
      · have hj : j = n + 1 := by omega
        rw [hj]
        exact hp
    · rw [if_neg hp] at h
      obtain rfl : n + 1 = i := Option.some.inj h
      exact ⟨Option.not_isSome_iff_eq_none.mp hp, Nat.le_refl _, fun j hj1 hj2 => by omega⟩

theorem gabLoop_none_spec {bufs : List (Nat × FixedSizeBuffer)} :
    ∀ n, gabLoop bufs n = none → ∀ j, j ≤ n → (mapFind bufs j).isSome := by
  intro n
  induction n with
  | zero =>
    intro h j hj
    rw [gabLoop] at h
    by_cases hp : (mapFind bufs 0).isSome
    · have hj0 : j = 0 := by omega
      rw [hj0]
      exact hp
    · rw [if_neg hp] at h
      exact absurd h (by simp)
  | succ n ih =>
    intro h j hj
    rw [gabLoop] at h
    by_cases hp : (mapFind bufs (n + 1)).isSome
    · rw [if_pos hp] at h
      rcases Nat.lt_or_ge j (n + 1) with hlt | hge
      · exact ih h j (by omega)
      · have hj1 : j = n + 1 := by omega
        rw [hj1]
        exact hp
    · rw [if_neg hp] at h
      exact absurd h (by simp)

theorem mapSorted_keys_nodup {α : Type} {m : List (Nat × α)} (hs : MapSorted m) :
    (m.map Prod.fst).Nodup := by
  have hchain : List.Chain' (fun x y => x < y) (m.map Prod.fst) := by
    rw [List.chain'_map]
    exact hs
  have hpw := List.chain'_iff_pairwise.mp hchain
  exact hpw.imp Nat.ne_of_lt

/-- The decrement scan always finds an unused id on a well-formed map: if it
reached id 0 while every id in `0..size` were present, the map would contain
`size + 1` distinct keys. -/
theorem GetAvailableBufferId_isSome (bufs : List (Nat × FixedSizeBuffer)) :
    (GetAvailableBufferId bufs).isSome := by
  rw [GetAvailableBufferId]
  cases hres : gabLoop bufs bufs.length with
  | some i => simp
  | none =>
    exfalso
    have hall := gabLoop_none_spec bufs.length hres
    have hsub : List.range (bufs.length + 1) ⊆ bufs.map Prod.fst := by
      intro j hj
      rw [List.mem_range] at hj
      exact (mapFind_isSome_iff bufs j).mp (hall j (by omega))
    have hsp := List.subperm_of_subset (List.nodup_range _) hsub
    have hlen := hsp.length_le
    simp only [List.length_range, List.length_map] at hlen
    omega

/-- Claim C9, counterexample: for the buffers map with keys `{2, 3}`, the
smallest non-key is 0, but the decrement-from-size scan starts at 2 and stops
at 1. -/
theorem claim_C9_counterexample :
    GetAvailableBufferId [(2, (⟨[], [], 0⟩ : FixedSizeBuffer)), (3, ⟨[], [], 0⟩)] = some 1 ∧
      mapFind [(2, (⟨[], [], 0⟩ : FixedSizeBuffer)), (3, ⟨[], [], 0⟩)] 0 = none ∧
      (1 : Nat) ≠ 0 :=
  ⟨by decide, by decide, by decide⟩

/-- Claim C9 (amended): `GetAvailableBufferId` (start at `|buffers|`,
decrement while present) returns the **largest** id `≤ |buffers|` that is not
currently a key — an unused id, but not in general the smallest one. -/
theorem claim_C9_gab_largest_free_le_size (bufs : List (Nat × FixedSizeBuffer)) :
    ∃ i, GetAvailableBufferId bufs = some i ∧ mapFind bufs i = none ∧
      i ≤ bufs.length ∧ ∀ j, i < j → j ≤ bufs.length → (mapFind bufs j).isSome := by
  have hsome := GetAvailableBufferId_isSome bufs
  obtain ⟨i, hi⟩ := Option.isSome_iff_exists.mp hsome
  obtain ⟨hnone, hle, hall⟩ := gabLoop_some_spec bufs.length i hi
  exact ⟨i, hi, hnone, hle, hall⟩


theorem maskTest_maskSet {ws : List Nat} (i j : Nat) (hlen : i / 64 < ws.length) :
    maskTest (maskSet ws i) j = (maskTest ws j || decide (i = j)) := by
  unfold maskTest maskSet
  rw [Nat.one_shiftLeft]
  by_cases hw : j / 64 = i / 64
  · rw [hw]
    rw [List.getD_eq_getElem?_getD, List.getElem?_set_self hlen]
    rw [List.getD_eq_getElem?_getD]
    simp only [Option.getD_some]
    rw [Nat.testBit_or, Nat.testBit_two_pow]
    have hiff : i % 64 = j % 64 ↔ i = j := by omega
    by_cases heq : i = j
    · simp [heq]
    · have hne : ¬ i % 64 = j % 64 := fun hc => heq (hiff.mp hc)
      simp [heq, hne]
  · rw [List.getD_eq_getElem?_getD, List.getElem?_set_ne (fun hc => hw hc.symm),
      ← List.getD_eq_getElem?_getD]
    have hne : ¬ i = j := fun hc => hw (by rw [hc])
    simp [hne]

theorem maskTest_maskClear {ws : List Nat} (i j : Nat) (hlen : i / 64 < ws.length) :
    maskTest (maskClear ws i) j = (maskTest ws j && ! decide (i = j)) := by
  unfold maskTest maskClear
  rw [Nat.one_shiftLeft]
  by_cases hw : j / 64 = i / 64
  · rw [hw]
    rw [List.getD_eq_getElem?_getD, List.getElem?_set_self hlen]
    rw [List.getD_eq_getElem?_getD]
    simp only [Option.getD_some]
    rw [Nat.testBit_and, Nat.testBit_xor, Nat.testBit_two_pow_sub_one, Nat.testBit_two_pow]
    have hj64 : j % 64 < 64 := Nat.mod_lt _ (by norm_num)
    have hiff : i % 64 = j % 64 ↔ i = j := by omega
    by_cases heq : i = j
    · simp [heq, hj64]
    · have hne : ¬ i % 64 = j % 64 := fun hc => heq (hiff.mp hc)
      simp [heq, hne, hj64]
  · rw [List.getD_eq_getElem?_getD, List.getElem?_set_ne (fun hc => hw hc.symm),
      ← List.getD_eq_getElem?_getD]
    have hne : ¬ i = j := fun hc => hw (by rw [hc])
    simp [hne]

theorem maskSet_length (ws : List Nat) (i : Nat) : (maskSet ws i).length = ws.length :=
  List.length_set ws _ _

theorem maskClear_length (ws : List Nat) (i : Nat) : (maskClear ws i).length = ws.length :=
  List.length_set ws _ _

theorem mapFind_mapSet_self {α : Type} {m : List (Nat × α)} {k : Nat} (v : α)
    (h : (mapFind m k).isSome) : mapFind (mapSet m k v) k = some v := by
  induction m with
  | nil => simp [mapFind] at h
  | cons kv rest ih =>
    obtain ⟨k0, v0⟩ := kv
    by_cases hk : k = k0
    · simp [mapFind, mapSet, hk]
    · rw [mapFind, if_neg hk] at h
      simp [mapFind, mapSet, hk, ih h]

theorem mapFind_mapSet_ne {α : Type} (m : List (Nat × α)) (k : Nat) (v : α) (j : Nat)
    (h : j ≠ k) : mapFind (mapSet m k v) j = mapFind m j := by
  induction m with
  | nil => simp [mapFind, mapSet]
  | cons kv rest ih =>
    obtain ⟨k0, v0⟩ := kv
    by_cases hk : k = k0
    · subst hk
      simp [mapFind, mapSet, h]
    · by_cases hj : j = k0
      · simp [mapFind, mapSet, hk, hj]
      · simp [mapFind, mapSet, hk, hj, ih]

theorem mem_setInsert_iff (l : List Nat) (k j : Nat) :
    j ∈ setInsert l k ↔ j = k ∨ j ∈ l := by
  induction l with
  | nil => simp [setInsert]
  | cons k0 rest ih =>
    rw [setInsert]
    by_cases h1 : k < k0
    · simp [h1, List.mem_cons]
    · rw [if_neg h1]
      by_cases h2 : k = k0
      · subst h2
        rw [if_pos rfl]
        simp only [List.mem_cons]
        tauto
      · simp only [if_neg h2, List.mem_cons, ih]
        tauto

/-- Claim C8: freeing an already-free slot (bitmap bit set) is a fatal
internal error; freeing a live slot sets the bit, inserts the buffer id into
`buffers_with_free_space`, and decrements both `total_segment_count` and the
buffer's `segment_count` by one. -/
theorem claim_C8_free_semantics (al : Alloc) (b off : Nat) (buffer : FixedSizeBuffer)
    (hfind : mapFind al.buffers b = some buffer) :
    (maskTest buffer.bitmask off = true → Free al ⟨b, off⟩ = none) ∧
    (maskTest buffer.bitmask off = false → 0 < al.total_segment_count →
      0 < buffer.segment_count →
      ∃ al2, Free al ⟨b, off⟩ = some al2 ∧
        mapFind al2.buffers b =
          some ⟨maskSet buffer.bitmask off, buffer.data, buffer.segment_count - 1⟩ ∧
        (off / 64 < buffer.bitmask.length →
          maskTest (maskSet buffer.bitmask off) off = true) ∧
        b ∈ al2.buffers_with_free_space ∧
        al2.total_segment_count = al.total_segment_count - 1) := by
  constructor
  · intro hset
    rw [Free]
    simp only [hfind, hset, if_true]
  · intro hclear htot hcnt
    rw [Free]
    simp only [hfind, hclear, Bool.false_eq_true, if_false,
      if_neg (by omega : ¬ al.total_segment_count = 0),
      if_neg (by omega : ¬ buffer.segment_count = 0)]
    refine ⟨_, rfl, ?_, ?_, ?_, rfl⟩
    · show mapFind (mapSet al.buffers b _) b = _
      rw [mapFind_mapSet_self _ (by simp [hfind])]
    · intro hlen
      rw [maskTest_maskSet off off hlen]
      simp
    · show b ∈ setInsert al.buffers_with_free_space b
      rw [mem_setInsert_iff]
      exact Or.inl rfl

theorem claim_C8_witness :
    (mapFind [(0, (⟨[2 ^ 64 - 2], [7], 1⟩ : FixedSizeBuffer))] 0 =
      some ⟨[2 ^ 64 - 2], [7], 1⟩) ∧
    (maskTest ([2 ^ 64 - 2] : List Nat) 0 = false ∧
      ∃ al2,
        Free ⟨16, 64, 1, 8, [(0, ⟨[2 ^ 64 - 2], [7], 1⟩)], [], 1⟩ ⟨0, 0⟩ = some al2 ∧
        mapFind al2.buffers 0 = some ⟨maskSet [2 ^ 64 - 2] 0, [7], 0⟩ ∧
        (0 / 64 < ([2 ^ 64 - 2] : List Nat).length →
          maskTest (maskSet [2 ^ 64 - 2] 0) 0 = true) ∧
        0 ∈ al2.buffers_with_free_space ∧
        al2.total_segment_count = 0) := by
  refine ⟨by decide, ?_, ?_⟩
  · decide
  · have h := claim_C8_free_semantics ⟨16, 64, 1, 8, [(0, ⟨[2 ^ 64 - 2], [7], 1⟩)], [], 1⟩
      0 0 ⟨[2 ^ 64 - 2], [7], 1⟩ (by decide)
    exact h.2 (by decide) (by decide) (by decide)


/-- `FixedSizeAllocator::GetUpperBoundBufferId`
(`fixed_size_allocator.cpp:127-135`). -/
def GetUpperBoundBufferId (al : Alloc) : Nat :=
  al.buffers.foldl (fun ub kv => if ub ≤ kv.1 then kv.1 + 1 else ub) 0

/-- `FixedSizeAllocator::Merge` (`fixed_size_allocator.cpp:137-156`); `none`
models the failing `D_ASSERT` on unequal segment sizes. Returns the updated
`self` and the emptied `other` (whose `total_segment_count` the code does not
reset). -/
def Merge (al other : Alloc) : Option (Alloc × Alloc) :=
  if al.segment_size = other.segment_size then
    let upper_bound_id := GetUpperBoundBufferId al
    some
      ({ al with
          buffers := other.buffers.foldl
            (fun m kv => mapInsert m (kv.1 + upper_bound_id) kv.2) al.buffers,
          buffers_with_free_space := other.buffers_with_free_space.foldl
            (fun l b => setInsert l (b + upper_bound_id)) al.buffers_with_free_space,
          total_segment_count := al.total_segment_count + other.total_segment_count },
        { other with buffers := [], buffers_with_free_space := [] })
  else none

instance : IsTrans (Nat × FixedSizeBuffer) (fun x y => x.1 < y.1) :=
  ⟨fun _ _ _ h1 h2 => Nat.lt_trans h1 h2⟩

instance : IsTrans Nat (fun x y : Nat => x < y) :=
  ⟨fun _ _ _ h1 h2 => Nat.lt_trans h1 h2⟩

theorem gubFold_spec (l : List (Nat × FixedSizeBuffer)) :
    ∀ acc : Nat,
      (l.foldl (fun ub kv => if ub ≤ kv.1 then kv.1 + 1 else ub) acc = acc ∨
        ∃ kv ∈ l, l.foldl (fun ub kv => if ub ≤ kv.1 then kv.1 + 1 else ub) acc = kv.1 + 1) ∧
      acc ≤ l.foldl (fun ub kv => if ub ≤ kv.1 then kv.1 + 1 else ub) acc ∧
      ∀ kv ∈ l, kv.1 < l.foldl (fun ub kv => if ub ≤ kv.1 then kv.1 + 1 else ub) acc := by
  induction l with
  | nil => exact fun acc => ⟨Or.inl rfl, Nat.le_refl _, fun kv h => absurd h (by simp)⟩
  | cons kv0 t ih =>
    intro acc
    simp only [List.foldl_cons]
    set acc1 := if acc ≤ kv0.1 then kv0.1 + 1 else acc with hacc1
    obtain ⟨hcase, hmono, hbound⟩ := ih acc1
    have hc1 : acc ≤ acc1 := by
      rw [hacc1]
      split <;> omega
    have hk0 : kv0.1 < acc1 := by
      rw [hacc1]
      split <;> omega
    refine ⟨?_, by omega, ?_⟩
    · rcases hcase with hid | ⟨kv, hkv, hres⟩
      · rw [hid, hacc1]
        by_cases hle : acc ≤ kv0.1
        · exact Or.inr ⟨kv0, by simp, by rw [if_pos hle]⟩
        · exact Or.inl (if_neg hle)
      · exact Or.inr ⟨kv, List.mem_cons_of_mem _ hkv, hres⟩
    · intro kv hkv
      rcases List.mem_cons.mp hkv with h0 | ht
      · rw [h0]
        omega
      · exact hbound kv ht

theorem mapFind_mapInsert_self {α : Type} {m : List (Nat × α)} {k : Nat} (v : α)
    (h : mapFind m k = none) : mapFind (mapInsert m k v) k = some v := by
  induction m with
  | nil => simp [mapFind, mapInsert]
  | cons kv rest ih =>
    obtain ⟨k0, v0⟩ := kv
    rw [mapFind] at h
    by_cases hk : k = k0
    · rw [if_pos hk] at h
      exact absurd h (by simp)
    · rw [if_neg hk] at h
      rw [mapInsert]
      by_cases hlt : k < k0
      · simp [hlt, mapFind]
      · rw [if_neg hlt, if_neg hk, mapFind, if_neg hk]
        exact ih h

theorem mapFind_mapInsert_ne {α : Type} (m : List (Nat × α)) (k : Nat) (v : α) (j : Nat)
    (h : j ≠ k) : mapFind (mapInsert m k v) j = mapFind m j := by
  induction m with
  | nil => simp [mapFind, mapInsert, h]
  | cons kv rest ih =>
    obtain ⟨k0, v0⟩ := kv
    rw [mapInsert]
    by_cases hlt : k < k0
    · rw [if_pos hlt, mapFind, if_neg h, mapFind]
    · rw [if_neg hlt]
      by_cases hk : k = k0
      · rw [if_pos hk]
      · rw [if_neg hk, mapFind, mapFind]
        by_cases hj : j = k0
        · rw [if_pos hj, if_pos hj]
        · rw [if_neg hj, if_neg hj]
          exact ih

theorem mapFind_eq_none_of_lt {α : Type} {m : List (Nat × α)} {j : Nat}
    (h : ∀ kv ∈ m, kv.1 < j) : mapFind m j = none := by
  induction m with
  | nil => rfl
  | cons kv rest ih =>
    rw [mapFind]
    have hk := h kv (by simp)
    rw [if_neg (by omega)]
    exact ih fun kv2 h2 => h kv2 (List.mem_cons_of_mem _ h2)

theorem mapFind_eq_of_mem {α : Type} {m : List (Nat × α)} {kv : Nat × α}
    (hp : List.Pairwise (fun x y => x.1 < y.1) m) (hmem : kv ∈ m) :
    mapFind m kv.1 = some kv.2 := by
  induction m with
  | nil => exact absurd hmem (by simp)
  | cons kv0 rest ih =>
    obtain ⟨hhead, htail⟩ := List.pairwise_cons.mp hp
    rcases List.mem_cons.mp hmem with h0 | ht
    · rw [h0, mapFind, if_pos rfl]
    · rw [mapFind]
      have hlt := hhead kv ht
      rw [if_neg (by omega)]
      exact ih htail ht

theorem foldInsert_preserve {l : List (Nat × FixedSizeBuffer)} {up j : Nat} :
    ∀ acc : List (Nat × FixedSizeBuffer), (∀ kv ∈ l, j ≠ kv.1 + up) →
      mapFind (l.foldl (fun m kv => mapInsert m (kv.1 + up) kv.2) acc) j = mapFind acc j := by
  induction l with
  | nil => exact fun acc _ => rfl
  | cons kv0 t ih =>
    intro acc hj
    simp only [List.foldl_cons]
    rw [ih _ fun kv h => hj kv (List.mem_cons_of_mem _ h)]
    exact mapFind_mapInsert_ne _ _ _ _ (hj kv0 (by simp))

theorem foldInsert_found {l : List (Nat × FixedSizeBuffer)} {up : Nat} :
    ∀ acc : List (Nat × FixedSizeBuffer),
      List.Pairwise (fun x y : Nat × FixedSizeBuffer => x.1 < y.1) l →
      (∀ kv ∈ l, mapFind acc (kv.1 + up) = none) →
      ∀ kv ∈ l, mapFind (l.foldl (fun m kv => mapInsert m (kv.1 + up) kv.2) acc) (kv.1 + up) =
        some kv.2 := by
  induction l with
  | nil => exact fun acc _ _ kv h => absurd h (by simp)
  | cons kv0 t ih =>
    intro acc hp hfresh kv hkv
    obtain ⟨hhead, htail⟩ := List.pairwise_cons.mp hp
    simp only [List.foldl_cons]
    rcases List.mem_cons.mp hkv with h0 | ht
    · subst h0
      rw [foldInsert_preserve _ fun kv2 h2 => by
        have := hhead kv2 h2
        omega]
      exact mapFind_mapInsert_self _ (hfresh kv (by simp))
    · refine ih _ htail ?_ kv ht
      intro kv2 h2
      rw [mapFind_mapInsert_ne _ _ _ _ (by have := hhead kv2 h2; omega)]
      exact hfresh kv2 (List.mem_cons_of_mem _ h2)

theorem mem_foldSetInsert {l : List Nat} {up j : Nat} :
    ∀ acc : List Nat,
      (j ∈ l.foldl (fun s b => setInsert s (b + up)) acc ↔
        j ∈ acc ∨ ∃ b ∈ l, j = b + up) := by
  induction l with
  | nil => simp
  | cons b0 t ih =>
    intro acc
    simp only [List.foldl_cons]
    rw [ih]
    rw [mem_setInsert_iff]
    constructor
    · rintro (⟨h | h⟩ | ⟨b, hb, hj⟩)
      · exact Or.inr ⟨b0, by simp, h⟩
      · exact Or.inl h
      · exact Or.inr ⟨b, List.mem_cons_of_mem _ hb, hj⟩
    · rintro (h | ⟨b, hb, hj⟩)
      · exact Or.inl (Or.inr h)
      · rcases List.mem_cons.mp hb with h0 | ht
        · exact Or.inl (Or.inl (by rw [hj, h0]))
        · exact Or.inr ⟨b, ht, hj⟩

/-- Claim C7: for allocators with equal `segment_size`, `Merge` inserts each
`(id, buf)` of `other.buffers` under key `id + upper` where `upper` is 0 on an
empty `self.buffers` and otherwise one plus its largest key; it shifts
`other.buffers_with_free_space` by the same amount, adds the totals, leaves
`self`'s pre-existing buffers unchanged, and leaves `other` empty. -/
theorem claim_C7_merge_spec (al other : Alloc)
    (hsz : al.segment_size = other.segment_size)
    (hself : MapSorted al.buffers) (hother : MapSorted other.buffers) :
    ∃ m, Merge al other = some m ∧
      (al.buffers = [] → GetUpperBoundBufferId al = 0) ∧
      (∀ kv ∈ al.buffers, kv.1 < GetUpperBoundBufferId al) ∧
      (al.buffers ≠ [] → ∃ kv ∈ al.buffers, GetUpperBoundBufferId al = kv.1 + 1) ∧
      (∀ kv ∈ other.buffers,
        mapFind m.1.buffers (kv.1 + GetUpperBoundBufferId al) = some kv.2) ∧
      (∀ kv ∈ al.buffers, mapFind m.1.buffers kv.1 = some kv.2) ∧
      (∀ j, j ∈ m.1.buffers_with_free_space ↔
        j ∈ al.buffers_with_free_space ∨
          ∃ b ∈ other.buffers_with_free_space, j = b + GetUpperBoundBufferId al) ∧
      m.1.total_segment_count = al.total_segment_count + other.total_segment_count ∧
      m.2.buffers = [] ∧ m.2.buffers_with_free_space = [] := by
  obtain ⟨hgcase0, -, hgbound0⟩ := gubFold_spec al.buffers 0
  have hgbound : ∀ kv ∈ al.buffers, kv.1 < GetUpperBoundBufferId al := hgbound0
  have hgcase : GetUpperBoundBufferId al = 0 ∨
      ∃ kv ∈ al.buffers, GetUpperBoundBufferId al = kv.1 + 1 := hgcase0
  have hpother := List.chain'_iff_pairwise.mp hother
  have hpself := List.chain'_iff_pairwise.mp hself
  have hfresh : ∀ kv ∈ other.buffers,
      mapFind al.buffers (kv.1 + GetUpperBoundBufferId al) = none := by
    intro kv _
    exact mapFind_eq_none_of_lt fun kv2 h2 => by
      have := hgbound kv2 h2
      omega
  refine ⟨_, by rw [Merge, if_pos hsz], ?_, hgbound, ?_, ?_, ?_, ?_, rfl, rfl, rfl⟩
  · intro hnil
    unfold GetUpperBoundBufferId
    rw [hnil]
    rfl
  · intro hne
    rcases hgcase with h0 | hfound
    · exfalso
      obtain ⟨kv, hkv⟩ := List.exists_mem_of_ne_nil al.buffers hne
      have := hgbound kv hkv
      omega
    · exact hfound
  · intro kv hkv
    exact foldInsert_found al.buffers hpother hfresh kv hkv
  · intro kv hkv
    have hlt := hgbound kv hkv
    rw [foldInsert_preserve al.buffers fun kv2 hkv2 => by omega]
    exact mapFind_eq_of_mem hpself hkv
  · intro j
    exact mem_foldSetInsert al.buffers_with_free_space

theorem claim_C7_witness :
    ∃ m,
      Merge ⟨16, 64, 1, 8, [(0, ⟨[], [], 2⟩), (2, ⟨[], [], 1⟩)], [2], 3⟩
          ⟨16, 64, 1, 8, [(0, ⟨[], [], 1⟩)], [0], 1⟩ = some m ∧
      (([(0, (⟨[], [], 2⟩ : FixedSizeBuffer)), (2, ⟨[], [], 1⟩)] : List _) = [] →
        GetUpperBoundBufferId ⟨16, 64, 1, 8, [(0, ⟨[], [], 2⟩), (2, ⟨[], [], 1⟩)], [2], 3⟩ = 0) ∧
      (∀ kv ∈ ([(0, (⟨[], [], 2⟩ : FixedSizeBuffer)), (2, ⟨[], [], 1⟩)] : List _), kv.1 <
        GetUpperBoundBufferId ⟨16, 64, 1, 8, [(0, ⟨[], [], 2⟩), (2, ⟨[], [], 1⟩)], [2], 3⟩) ∧
      (([(0, (⟨[], [], 2⟩ : FixedSizeBuffer)), (2, ⟨[], [], 1⟩)] : List _) ≠ [] →
        ∃ kv ∈ ([(0, (⟨[], [], 2⟩ : FixedSizeBuffer)), (2, ⟨[], [], 1⟩)] : List _),
          GetUpperBoundBufferId ⟨16, 64, 1, 8, [(0, ⟨[], [], 2⟩), (2, ⟨[], [], 1⟩)], [2], 3⟩ =
            kv.1 + 1) ∧
      (∀ kv ∈ ([(0, (⟨[], [], 1⟩ : FixedSizeBuffer))] : List _),
        mapFind m.1.buffers (kv.1 +
          GetUpperBoundBufferId ⟨16, 64, 1, 8, [(0, ⟨[], [], 2⟩), (2, ⟨[], [], 1⟩)], [2], 3⟩) =
          some kv.2) ∧
      (∀ kv ∈ ([(0, (⟨[], [], 2⟩ : FixedSizeBuffer)), (2, ⟨[], [], 1⟩)] : List _),
        mapFind m.1.buffers kv.1 = some kv.2) ∧
      (∀ j, j ∈ m.1.buffers_with_free_space ↔
        j ∈ ([2] : List Nat) ∨ ∃ b ∈ ([0] : List Nat), j = b +
          GetUpperBoundBufferId ⟨16, 64, 1, 8, [(0, ⟨[], [], 2⟩), (2, ⟨[], [], 1⟩)], [2], 3⟩) ∧
      m.1.total_segment_count = 3 + 1 ∧
      m.2.buffers = [] ∧ m.2.buffers_with_free_space = [] :=
  claim_C7_merge_spec ⟨16, 64, 1, 8, [(0, ⟨[], [], 2⟩), (2, ⟨[], [], 1⟩)], [2], 3⟩
    ⟨16, 64, 1, 8, [(0, ⟨[], [], 1⟩)], [0], 1⟩ rfl (by simp [MapSorted]) (by simp [MapSorted])


theorem setInsert_head_lt {t : List Nat} {k0 k : Nat} (hk : k0 < k)
    (hs : List.Chain' (fun x y : Nat => x < y) (k0 :: t)) :
    ∀ y ∈ (setInsert t k).head?, k0 < y := by
  cases t with
  | nil =>
    intro y hy
    simp only [setInsert, List.head?] at hy
    obtain rfl : k = y := Option.some.inj hy
    exact hk
  | cons t0 tt =>
    intro y hy
    have ht0 : k0 < t0 := (List.chain'_cons.mp hs).1
    rw [setInsert] at hy
    by_cases h1 : k < t0
    · rw [if_pos h1] at hy
      obtain rfl : k = y := Option.some.inj hy
      exact hk
    · rw [if_neg h1] at hy
      by_cases h2 : k = t0
      · rw [if_pos h2] at hy
        obtain rfl : t0 = y := Option.some.inj hy
        exact ht0
      · rw [if_neg h2] at hy
        obtain rfl : t0 = y := Option.some.inj hy
        exact ht0

theorem setInsert_sorted {l : List Nat} (hs : SetSorted l) (k : Nat) :
    SetSorted (setInsert l k) := by
  induction l with
  | nil => simp [setInsert, SetSorted]
  | cons k0 t ih =>
    rw [SetSorted, setInsert]
    by_cases h1 : k < k0
    · rw [if_pos h1]
      exact List.chain'_cons.mpr ⟨h1, hs⟩
    · rw [if_neg h1]
      by_cases h2 : k = k0
      · rw [if_pos h2]
        exact hs
      · rw [if_neg h2]
        have hk : k0 < k := by omega
        have htail : SetSorted t := (List.chain'_cons'.mp hs).2
        exact List.chain'_cons'.mpr ⟨setInsert_head_lt hk hs, ih htail⟩

theorem setErase_sublist (l : List Nat) (k : Nat) : (setErase l k).Sublist l := by
  induction l with
  | nil => simp [setErase]
  | cons k0 t ih =>
    rw [setErase]
    by_cases h : k = k0
    · rw [if_pos h]
      exact List.sublist_cons_of_sublist _ (List.Sublist.refl t)
    · rw [if_neg h]
      exact List.Sublist.cons₂ _ ih

theorem setErase_sorted {l : List Nat} (hs : SetSorted l) (k : Nat) :
    SetSorted (setErase l k) :=
  List.Chain'.sublist hs (setErase_sublist l k)

theorem mem_of_mem_setErase {l : List Nat} {k j : Nat} (h : j ∈ setErase l k) : j ∈ l :=
  (setErase_sublist l k).subset h

theorem mem_setErase_of_ne {l : List Nat} {k j : Nat} (hj : j ∈ l) (hne : j ≠ k) :
    j ∈ setErase l k := by
  induction l with
  | nil => exact absurd hj (by simp)
  | cons k0 t ih =>
    rw [setErase]
    rcases List.mem_cons.mp hj with h0 | ht
    · subst h0
      rw [if_neg (by omega : ¬ k = j)]
      exact List.mem_cons_self j _
    · by_cases h : k = k0
      · rw [if_pos h]
        exact ht
      · rw [if_neg h]
        exact List.mem_cons_of_mem _ (ih ht)

theorem not_mem_setErase_self {l : List Nat} (hs : SetSorted l) (k : Nat) :
    k ∉ setErase l k := by
  induction l with
  | nil => simp [setErase]
  | cons k0 t ih =>
    have hpw := List.chain'_iff_pairwise.mp hs
    obtain ⟨hhead, hptail⟩ := List.pairwise_cons.mp hpw
    have htail : SetSorted t := List.chain'_iff_pairwise.mpr hptail
    rw [setErase]
    by_cases h : k = k0
    · rw [if_pos h]
      intro hk
      have := hhead k hk
      omega
    · rw [if_neg h]
      intro hk
      rcases List.mem_cons.mp hk with h0 | ht
      · exact h h0
      · exact ih htail ht

/-- The inductive invariant behind claim C4: the free-space set is sorted
(hence duplicate-free), every listed buffer exists and is non-full, and every
existing buffer's count is at most `avail`, with non-full buffers listed. -/
def C4Inv (st : Alloc) : Prop :=
  SetSorted st.buffers_with_free_space ∧
  1 ≤ st.available_segments_per_buffer ∧
  (∀ b ∈ st.buffers_with_free_space, ∃ buf, mapFind st.buffers b = some buf ∧
    buf.segment_count < st.available_segments_per_buffer) ∧
  (∀ b buf, mapFind st.buffers b = some buf →
    buf.segment_count ≤ st.available_segments_per_buffer ∧
    (buf.segment_count < st.available_segments_per_buffer →
      b ∈ st.buffers_with_free_space))

theorem newEnsureBuffer_inv {al al1 : Alloc} (hinv : C4Inv al)
    (h : newEnsureBuffer al = some al1) :
    C4Inv al1 ∧ al1.available_segments_per_buffer = al.available_segments_per_buffer ∧
      al1.total_segment_count = al.total_segment_count := by
  obtain ⟨hfs, havail, hfwd, hbck⟩ := hinv
  rw [newEnsureBuffer] at h
  by_cases hempty : al.buffers_with_free_space.isEmpty
  case neg =>
    rw [if_neg hempty] at h
    obtain rfl : al = al1 := Option.some.inj h
    exact ⟨⟨hfs, havail, hfwd, hbck⟩, rfl, rfl⟩
  case pos =>
    rw [if_pos hempty] at h
    have hfse : al.buffers_with_free_space = [] := List.isEmpty_iff.mp hempty
    cases hgab : GetAvailableBufferId al.buffers with
    | none =>
      rw [hgab] at h
      exact absurd h (by simp)
    | some id =>
      rw [hgab] at h
      obtain rfl : _ = al1 := Option.some.inj h
      have hid : mapFind al.buffers id = none := (gabLoop_some_spec _ id hgab).1
      refine ⟨⟨?_, havail, ?_, ?_⟩, rfl, rfl⟩
      · show SetSorted (setInsert al.buffers_with_free_space id)
        rw [hfse]
        simp [setInsert, SetSorted]
      · intro b hb
        rw [show (setInsert al.buffers_with_free_space id) = [id] by rw [hfse]; rfl] at hb
        obtain rfl : b = id := by simpa using hb
        refine ⟨_, mapFind_mapInsert_self _ hid, ?_⟩
        show 0 < al.available_segments_per_buffer
        omega
      · intro b buf hfind
        by_cases hb : b = id
        · subst hb
          rw [mapFind_mapInsert_self _ hid] at hfind
          obtain rfl : _ = buf := Option.some.inj hfind
          constructor
          · show 0 ≤ al.available_segments_per_buffer
            omega
          · intro _
            rw [show (setInsert al.buffers_with_free_space b) = [b] by rw [hfse]; rfl]
            simp
        · rw [mapFind_mapInsert_ne _ _ _ _ hb] at hfind
          obtain ⟨hle, hmem⟩ := hbck b buf hfind
          refine ⟨hle, fun hlt => ?_⟩
          exfalso
          have := hmem hlt
          rw [hfse] at this
          simp at this

theorem newFromFree_inv {al1 : Alloc} {p : IndexPointer} {st' : Alloc} (hinv : C4Inv al1)
    (h : newFromFree al1 = some (p, st')) :
    C4Inv st' ∧ st'.available_segments_per_buffer = al1.available_segments_per_buffer ∧
      st'.total_segment_count = al1.total_segment_count + 1 := by
  obtain ⟨hfs, havail, hfwd, hbck⟩ := hinv
  rw [newFromFree] at h
  split at h
  case h_1 => exact absurd h (by simp)
  case h_2 b rest hfse =>
    split at h
    case h_1 hfind => exact absurd h (by simp)
    case h_2 buffer hfind =>
      split at h
      case h_1 hgo => exact absurd h (by simp)
      case h_2 off ws hgo =>
        have heq := Option.some.inj h
        rw [Prod.mk.injEq] at heq
        obtain ⟨hp, hst⟩ := heq
        have hbmem : b ∈ al1.buffers_with_free_space := by
          rw [hfse]
          simp
        obtain ⟨buffer2, hfind2, hcnt⟩ := hfwd b hbmem
        obtain rfl : buffer = buffer2 := by
          rw [hfind] at hfind2
          exact Option.some.inj hfind2
        by_cases hfull : buffer.segment_count + 1 = al1.available_segments_per_buffer
        case pos =>
          rw [if_pos hfull] at hst
          subst hst
          refine ⟨⟨?_, havail, ?_, ?_⟩, rfl, rfl⟩
          · exact setErase_sorted hfs b
          · intro b2 hb2
            have hb2mem : b2 ∈ al1.buffers_with_free_space := mem_of_mem_setErase hb2
            have hb2ne : b2 ≠ b := by
              intro hc
              subst hc
              exact not_mem_setErase_self hfs b2 hb2
            obtain ⟨buf2, hf2, hc2⟩ := hfwd b2 hb2mem
            refine ⟨buf2, ?_, hc2⟩
            rw [mapFind_mapSet_ne _ _ _ _ hb2ne]
            exact hf2
          · intro b2 buf2 hf2
            by_cases hb2 : b2 = b
            · subst hb2
              rw [mapFind_mapSet_self _ (by simp [hfind])] at hf2
              obtain rfl : _ = buf2 := Option.some.inj hf2
              constructor
              · show buffer.segment_count + 1 ≤ al1.available_segments_per_buffer
                omega
              · intro hlt
                exfalso
                revert hlt
                show ¬ buffer.segment_count + 1 < al1.available_segments_per_buffer
                omega
            · rw [mapFind_mapSet_ne _ _ _ _ hb2] at hf2
              obtain ⟨hle, hmem⟩ := hbck b2 buf2 hf2
              exact ⟨hle, fun hlt => mem_setErase_of_ne (hmem hlt) hb2⟩
        case neg =>
          rw [if_neg hfull] at hst
          subst hst
          refine ⟨⟨hfs, havail, ?_, ?_⟩, rfl, rfl⟩
          · intro b2 hb2
            by_cases hb2e : b2 = b
            · subst hb2e
              refine ⟨_, mapFind_mapSet_self _ (by simp [hfind]), ?_⟩
              show buffer.segment_count + 1 < al1.available_segments_per_buffer
              omega
            · obtain ⟨buf2, hf2, hc2⟩ := hfwd b2 hb2
              refine ⟨buf2, ?_, hc2⟩
              rw [mapFind_mapSet_ne _ _ _ _ hb2e]
              exact hf2
          · intro b2 buf2 hf2
            by_cases hb2 : b2 = b
            · subst hb2
              rw [mapFind_mapSet_self _ (by simp [hfind])] at hf2
              obtain rfl : _ = buf2 := Option.some.inj hf2
              constructor
              · show buffer.segment_count + 1 ≤ al1.available_segments_per_buffer
                omega
              · intro _
                exact hbmem
            · rw [mapFind_mapSet_ne _ _ _ _ hb2] at hf2
              obtain ⟨hle, hmem⟩ := hbck b2 buf2 hf2
              exact ⟨hle, hmem⟩

theorem New_inv {al : Alloc} {p : IndexPointer} {st' : Alloc} (hinv : C4Inv al)
    (h : New al = some (p, st')) :
    C4Inv st' ∧ st'.available_segments_per_buffer = al.available_segments_per_buffer ∧
      st'.total_segment_count = al.total_segment_count + 1 := by
  rw [New] at h
  cases hens : newEnsureBuffer al with
  | none =>
    rw [hens] at h
    exact absurd h (by simp)
  | some al1 =>
    rw [hens] at h
    simp only [Option.some_bind] at h
    obtain ⟨hinv1, havail1, htot1⟩ := newEnsureBuffer_inv hinv hens
    obtain ⟨hinv2, havail2, htot2⟩ := newFromFree_inv hinv1 h
    exact ⟨hinv2, by omega, by omega⟩

theorem Free_inv {al : Alloc} {p : IndexPointer} {st' : Alloc} (hinv : C4Inv al)
    (h : Free al p = some st') :
    C4Inv st' ∧ st'.available_segments_per_buffer = al.available_segments_per_buffer ∧
      st'.total_segment_count = al.total_segment_count - 1 := by
  obtain ⟨hfs, havail, hfwd, hbck⟩ := hinv
  rw [Free] at h
  split at h
  case h_1 hfind => exact absurd h (by simp)
  case h_2 buffer hfind =>
    by_cases hbit : maskTest buffer.bitmask p.offset
    · rw [if_pos hbit] at h
      exact absurd h (by simp)
    · rw [if_neg hbit] at h
      by_cases htot : al.total_segment_count = 0
      · rw [if_pos htot] at h
        exact absurd h (by simp)
      · rw [if_neg htot] at h
        by_cases hcnt : buffer.segment_count = 0
        · rw [if_pos hcnt] at h
          exact absurd h (by simp)
        · rw [if_neg hcnt] at h
          obtain rfl : _ = st' := Option.some.inj h
          have hle0 : buffer.segment_count ≤ al.available_segments_per_buffer :=
            (hbck _ buffer hfind).1
          refine ⟨⟨setInsert_sorted hfs _, havail, ?_, ?_⟩, rfl, rfl⟩
          · intro b2 hb2
            by_cases hb2e : b2 = p.buffer_id
            · subst hb2e
              refine ⟨_, mapFind_mapSet_self _ (by simp [hfind]), ?_⟩
              show buffer.segment_count - 1 < al.available_segments_per_buffer
              omega
            · rcases (mem_setInsert_iff _ _ _).mp hb2 with he | hmem
              · exact absurd he hb2e
              · obtain ⟨buf2, hf2, hc2⟩ := hfwd b2 hmem
                refine ⟨buf2, ?_, hc2⟩
                rw [mapFind_mapSet_ne _ _ _ _ hb2e]
                exact hf2
          · intro b2 buf2 hf2
            by_cases hb2 : b2 = p.buffer_id
            · subst hb2
              rw [mapFind_mapSet_self _ (by simp [hfind])] at hf2
              obtain rfl : _ = buf2 := Option.some.inj hf2
              constructor
              · show buffer.segment_count - 1 ≤ al.available_segments_per_buffer
                omega
              · intro _
                exact (mem_setInsert_iff _ _ _).mpr (Or.inl rfl)
            · rw [mapFind_mapSet_ne _ _ _ _ hb2] at hf2
              obtain ⟨hle, hmem⟩ := hbck b2 buf2 hf2
              exact ⟨hle, fun hlt => (mem_setInsert_iff _ _ _).mpr (Or.inr (hmem hlt))⟩

theorem WriteSlot_inv {al : Alloc} (p : IndexPointer) (v : Nat) (hinv : C4Inv al) :
    C4Inv (WriteSlot al p v) ∧
      (WriteSlot al p v).available_segments_per_buffer =
        al.available_segments_per_buffer ∧
      (WriteSlot al p v).total_segment_count = al.total_segment_count := by
  obtain ⟨hfs, havail, hfwd, hbck⟩ := hinv
  cases hfind : mapFind al.buffers p.buffer_id with
  | none =>
    have hw : WriteSlot al p v = al := by
      rw [WriteSlot, hfind]
    rw [hw]
    exact ⟨⟨hfs, havail, hfwd, hbck⟩, rfl, rfl⟩
  | some buffer =>
    have hw : WriteSlot al p v = { al with buffers := mapSet al.buffers p.buffer_id ⟨buffer.bitmask, buffer.data.set p.offset v, buffer.segment_count⟩ } := by
      rw [WriteSlot, hfind]
    rw [hw]
    refine ⟨⟨hfs, havail, ?_, ?_⟩, rfl, rfl⟩
    · intro b2 hb2
      obtain ⟨buf2, hf2, hc2⟩ := hfwd b2 hb2
      by_cases hb2e : b2 = p.buffer_id
      · subst hb2e
        obtain rfl : buffer = buf2 := by
          rw [hfind] at hf2
          exact Option.some.inj hf2
        exact ⟨_, mapFind_mapSet_self _ (by simp [hfind]), hc2⟩
      · refine ⟨buf2, ?_, hc2⟩
        show mapFind (mapSet al.buffers p.buffer_id _) b2 = some buf2
        rw [mapFind_mapSet_ne _ _ _ _ hb2e]
        exact hf2
    · intro b2 buf2 hf2
      by_cases hb2 : b2 = p.buffer_id
      · subst hb2
        have hf2b : mapFind (mapSet al.buffers p.buffer_id
            ⟨buffer.bitmask, buffer.data.set p.offset v, buffer.segment_count⟩) p.buffer_id =
            some ⟨buffer.bitmask, buffer.data.set p.offset v, buffer.segment_count⟩ :=
          mapFind_mapSet_self _ (by simp [hfind])
        rw [hf2b] at hf2
        obtain rfl : _ = buf2 := Option.some.inj hf2
        obtain ⟨hle, hmem⟩ := hbck _ buffer hfind
        exact ⟨hle, hmem⟩
      · have hf2b : mapFind (mapSet al.buffers p.buffer_id
            ⟨buffer.bitmask, buffer.data.set p.offset v, buffer.segment_count⟩) b2 =
            mapFind al.buffers b2 :=
          mapFind_mapSet_ne _ _ _ _ hb2
        rw [hf2b] at hf2
        exact hbck b2 buf2 hf2

theorem runOps_inv {ops : List AllocOp} :
    ∀ {al st' : Alloc}, C4Inv al → runOps al ops = some st' →
      C4Inv st' ∧
        st'.available_segments_per_buffer = al.available_segments_per_buffer := by
  induction ops with
  | nil =>
    intro al st' hinv h
    obtain rfl : al = st' := Option.some.inj h
    exact ⟨hinv, rfl⟩
  | cons op rest ih =>
    intro al st' hinv h
    rw [runOps] at h
    cases hop : runOp al op with
    | none =>
      rw [hop] at h
      exact absurd h (by simp)
    | some al1 =>
      rw [hop] at h
      have hinv1 : C4Inv al1 ∧
          al1.available_segments_per_buffer = al.available_segments_per_buffer := by
        cases op with
        | opNew =>
          rw [runOp] at hop
          cases hnew : New al with
          | none =>
            rw [hnew] at hop
            exact absurd hop (by simp)
          | some pr =>
            rw [hnew] at hop
            obtain rfl : pr.2 = al1 := Option.some.inj hop
            obtain ⟨h1, h2, -⟩ := New_inv hinv (show New al = some (pr.1, pr.2) by
              rw [hnew])
            exact ⟨h1, h2⟩
        | opFree b off =>
          rw [runOp] at hop
          obtain ⟨h1, h2, -⟩ := Free_inv hinv hop
          exact ⟨h1, h2⟩
        | opWrite b off v =>
          rw [runOp] at hop
          obtain rfl : WriteSlot al ⟨b, off⟩ v = al1 := Option.some.inj hop
          obtain ⟨h1, h2, -⟩ := WriteSlot_inv ⟨b, off⟩ v hinv
          exact ⟨h1, h2⟩
      obtain ⟨hr1, hr2⟩ := ih hinv1.1 h
      exact ⟨hr1, by rw [hr2, hinv1.2]⟩

theorem C4Inv_init {s : Nat} {cfg : AllocConfig} (hs1 : 1 ≤ s)
    (hs2 : s ≤ BLOCK_SIZE - validity_size) (hcfg : construct s = some cfg) :
    C4Inv (initAlloc cfg) := by
  obtain ⟨cfg2, hc2, -, hge1, -, -⟩ := construct_props s hs1 hs2
  rw [hcfg] at hc2
  obtain rfl : cfg = cfg2 := Option.some.inj hc2
  refine ⟨by simp [SetSorted, initAlloc], hge1, ?_, ?_⟩
  · intro b hb
    simp [initAlloc] at hb
  · intro b buf hfind
    simp [initAlloc, mapFind] at hfind

/-- Claim C4: after every finite sequence of `new`/`free` (and caller write)
operations starting from a freshly constructed allocator,
`buffers_with_free_space` contains exactly the ids `b` that are keys of
`buffers` whose buffer has `segment_count < available_segments_per_buffer`. -/
theorem claim_C4_free_space_exact {s : Nat} {cfg : AllocConfig} {ops : List AllocOp}
    {st : Alloc} (hs1 : 1 ≤ s) (hs2 : s ≤ BLOCK_SIZE - validity_size)
    (hcfg : construct s = some cfg) (hrun : runOps (initAlloc cfg) ops = some st) :
    ∀ b, b ∈ st.buffers_with_free_space ↔
      ∃ buf, mapFind st.buffers b = some buf ∧
        buf.segment_count < st.available_segments_per_buffer := by
  obtain ⟨⟨-, -, hfwd, hbck⟩, -⟩ := runOps_inv (C4Inv_init hs1 hs2 hcfg) hrun
  intro b
  constructor
  · exact hfwd b
  · rintro ⟨buf, hfind, hlt⟩
    exact (hbck b buf hfind).2 hlt

def c4WitnessState : Alloc :=
  (runOps (initAlloc ⟨8000, 2, 32, 16⟩)
    [AllocOp.opNew, AllocOp.opNew, AllocOp.opFree 0 0]).getD (initAlloc ⟨8000, 2, 32, 16⟩)

theorem claim_C4_witness :
    construct 8000 = some ⟨8000, 2, 32, 16⟩ ∧
      runOps (initAlloc ⟨8000, 2, 32, 16⟩)
        [AllocOp.opNew, AllocOp.opNew, AllocOp.opFree 0 0] = some c4WitnessState ∧
      ∀ b, b ∈ c4WitnessState.buffers_with_free_space ↔
        ∃ buf, mapFind c4WitnessState.buffers b = some buf ∧
          buf.segment_count < c4WitnessState.available_segments_per_buffer :=
  ⟨by decide, by decide,
    @claim_C4_free_space_exact 8000 ⟨8000, 2, 32, 16⟩
      [AllocOp.opNew, AllocOp.opNew, AllocOp.opFree 0 0] c4WitnessState
      (by decide) (by decide) (by decide) (by decide)⟩

/-- One iteration of the leftmost-set-bit ladder inside `GetMaxOffset`
(`fixed_size_allocator.cpp:372-385`): if `entry_inv & ~BASE[level]` is
non-zero, the leftmost set bit lies in the upper half, so shift by
`SHIFT[level]` and advance the position; otherwise permanently mask to the
lower half. The state is the pair `(entry_inv, first_valid_bit)`. -/
def leftStep (st : Nat × Nat) (i : Nat) : Nat × Nat :=
  if st.1 &&& ((2 ^ 64 - 1) ^^^ BASE i) ≠ 0 then (st.1 >>> SHIFT i, st.2 + SHIFT i)
  else (st.1 &&& BASE i, st.2)

/-- The 6-iteration loop of `GetMaxOffset` that locates the leftmost set bit
of a 64-bit word (`fixed_size_allocator.cpp:372-385`). -/
def findLeftmostSetBit (entry_inv : Nat) : Nat :=
  ([0, 1, 2, 3, 4, 5].foldl leftStep (entry_inv, 0)).2

/-- `p` is the position of the most significant set bit of `n`. -/
def LeadingBit (n p : Nat) : Prop := 2 ^ p ≤ n ∧ n < 2 ^ (p + 1)

theorem land_compmask_ne_zero {e m h : Nat} (he : e < 2 ^ (2 * h))
    (h64 : 2 * h ≤ 64) (hm : m % 2 ^ (2 * h) = 2 ^ h - 1) :
    e &&& ((2 ^ 64 - 1) ^^^ m) ≠ 0 ↔ 2 ^ h ≤ e := by
  have hcbit : ∀ j, j < 2 * h → ((2 ^ 64 - 1) ^^^ m).testBit j = decide (h ≤ j) := by
    intro j hj
    rw [Nat.testBit_xor, Nat.testBit_two_pow_sub_one]
    have hmj : m.testBit j = decide (j < h) := by
      have := Nat.testBit_mod_two_pow m (2 * h) j
      rw [hm, Nat.testBit_two_pow_sub_one] at this
      simpa [hj] using this.symm
    rw [hmj]
    by_cases hjh : j < h
    · simp [show j < 64 by omega, hjh, show ¬ h ≤ j by omega]
    · simp [show j < 64 by omega, hjh, show h ≤ j by omega]
  constructor
  · intro hne
    by_contra hc
    apply hne
    apply Nat.eq_of_testBit_eq
    intro j
    rw [Nat.testBit_and, Nat.zero_testBit]
    by_cases hjh : j < h
    · have hz : ((2 ^ 64 - 1) ^^^ m).testBit j = false := by
        rw [hcbit j (by omega)]
        simp only [decide_eq_false_iff_not]
        omega
      rw [hz, Bool.and_false]
    · have hz : e.testBit j = false := by
        apply Nat.testBit_lt_two_pow
        calc e < 2 ^ h := by omega
          _ ≤ 2 ^ j := Nat.pow_le_pow_right (by norm_num) (by omega)
      rw [hz, Bool.false_and]
  · intro hle hc
    have hne0 : e ≠ 0 := by
      have : 0 < 2 ^ h := by positivity
      omega
    have hjl : 2 ^ Nat.log2 e ≤ e := Nat.log2_self_le hne0
    have hju : e < 2 ^ (Nat.log2 e + 1) := Nat.lt_log2_self
    have hhj : h ≤ Nat.log2 e := by
      by_contra hcon
      have : (2 : Nat) ^ (Nat.log2 e + 1) ≤ 2 ^ h :=
        Nat.pow_le_pow_right (by norm_num) (by omega)
      omega
    have hj2h : Nat.log2 e < 2 * h := by
      by_contra hcon
      have : (2 : Nat) ^ (2 * h) ≤ 2 ^ Nat.log2 e :=
        Nat.pow_le_pow_right (by norm_num) (by omega)
      omega
    have hebit : e.testBit (Nat.log2 e) = true := by
      rw [Nat.testBit_to_div_mod]
      have hdiv : e / 2 ^ Nat.log2 e = 1 := by
        apply Nat.div_eq_of_lt_le (by simpa using hjl)
        have hp : (1 + 1) * 2 ^ Nat.log2 e = 2 ^ (Nat.log2 e + 1) := by
          rw [pow_succ]
          ring
        omega
      rw [hdiv]
      decide
    have hcb : ((2 ^ 64 - 1) ^^^ m).testBit (Nat.log2 e) = true := by
      rw [hcbit _ hj2h]
      simp [hhj]
    have hand := congrArg (fun n => n.testBit (Nat.log2 e)) hc
    simp only [Nat.testBit_and, Nat.zero_testBit, hebit, hcb, Bool.and_self] at hand
    exact Bool.false_ne_true hand.symm

theorem leftStep_spec {x : Nat} (i : Nat) (hi : i < 6) (st : Nat × Nat)
    (he : st.1 ≠ 0) (hlt : st.1 < 2 ^ (2 * SHIFT i))
    (hrel : ∀ p, LeadingBit st.1 p → LeadingBit x (p + st.2)) :
    (leftStep st i).1 ≠ 0 ∧ (leftStep st i).1 < 2 ^ SHIFT i ∧
      ∀ p, LeadingBit (leftStep st i).1 p → LeadingBit x (p + (leftStep st i).2) := by
  have h64 : 2 * SHIFT i ≤ 64 := by interval_cases i <;> norm_num [SHIFT]
  have hcond := land_compmask_ne_zero hlt h64 (mask_mod_shift i hi)
  have hpos : 0 < 2 ^ SHIFT i := by positivity
  have hmaskmod : st.1 &&& BASE i = st.1 % 2 ^ SHIFT i :=
    land_mask_eq_mod hlt (mask_mod_shift i hi)
  have hpow2 : (2 : Nat) ^ (2 * SHIFT i) = 2 ^ SHIFT i * 2 ^ SHIFT i := by
    rw [two_mul, pow_add]
  unfold leftStep
  by_cases hc : st.1 &&& ((2 ^ 64 - 1) ^^^ BASE i) ≠ 0
  · rw [if_pos hc]
    have hge : 2 ^ SHIFT i ≤ st.1 := hcond.mp hc
    have hdiv : st.1 >>> SHIFT i = st.1 / 2 ^ SHIFT i := Nat.shiftRight_eq_div_pow _ _
    have hne2 : st.1 / 2 ^ SHIFT i ≠ 0 := by
      have h1 : 1 ≤ st.1 / 2 ^ SHIFT i := (Nat.one_le_div_iff hpos).mpr hge
      omega
    have hlt2 : st.1 / 2 ^ SHIFT i < 2 ^ SHIFT i := Nat.div_lt_of_lt_mul (by omega)
    refine ⟨by simpa [hdiv] using hne2, by simpa [hdiv] using hlt2, ?_⟩
    intro p hp
    simp only [hdiv] at hp
    obtain ⟨hl, hu⟩ := hp
    have hl2 : 2 ^ (p + SHIFT i) ≤ st.1 := by
      have hm := (Nat.le_div_iff_mul_le hpos).mp hl
      calc 2 ^ (p + SHIFT i) = 2 ^ p * 2 ^ SHIFT i := by rw [pow_add]
        _ ≤ st.1 := hm
    have hu2 : st.1 < 2 ^ (p + SHIFT i + 1) := by
      have hm := (Nat.div_lt_iff_lt_mul hpos).mp hu
      calc st.1 < 2 ^ (p + 1) * 2 ^ SHIFT i := hm
        _ = 2 ^ (p + SHIFT i + 1) := by
            rw [← pow_add]
            congr 1
            omega
    have hres := hrel (p + SHIFT i) ⟨hl2, hu2⟩
    have hcomm : p + SHIFT i + st.2 = p + (st.2 + SHIFT i) := by omega
    rw [hcomm] at hres
    exact hres
  · rw [if_neg hc]
    push_neg at hc
    have hlt1 : st.1 < 2 ^ SHIFT i := by
      by_contra hge
      exact hcond.mpr (Nat.le_of_not_lt hge) hc
    have hmask2 : st.1 &&& BASE i = st.1 := by
      rw [hmaskmod, Nat.mod_eq_of_lt hlt1]
    refine ⟨by simpa [hmask2] using he, by simpa [hmask2] using hlt1, ?_⟩
    intro p hp
    simp only [hmask2] at hp
    exact hrel p hp

theorem findLeftmostSetBit_leadingBit {x : Nat} (hne : x ≠ 0) (hlt : x < 2 ^ 64) :
    LeadingBit x (findLeftmostSetBit x) := by
  have hrel0 : ∀ p, LeadingBit (x, (0 : Nat)).1 p → LeadingBit x (p + (x, (0 : Nat)).2) := by
    intro p hp
    simpa using hp
  have h0 := leftStep_spec 0 (by norm_num) (x, 0) hne (by norm_num [SHIFT]; exact hlt) hrel0
  have hb1 : (leftStep (x, 0) 0).1 < 2 ^ (2 * SHIFT 1) := by
    have := h0.2.1
    norm_num [SHIFT] at this ⊢
    exact this
  have h1 := leftStep_spec 1 (by norm_num) _ h0.1 hb1 h0.2.2
  have hb2 : (leftStep (leftStep (x, 0) 0) 1).1 < 2 ^ (2 * SHIFT 2) := by
    have := h1.2.1
    norm_num [SHIFT] at this ⊢
    exact this
  have h2 := leftStep_spec 2 (by norm_num) _ h1.1 hb2 h1.2.2
  have hb3 : (leftStep (leftStep (leftStep (x, 0) 0) 1) 2).1 < 2 ^ (2 * SHIFT 3) := by
    have := h2.2.1
    norm_num [SHIFT] at this ⊢
    exact this
  have h3 := leftStep_spec 3 (by norm_num) _ h2.1 hb3 h2.2.2
  have hb4 : (leftStep (leftStep (leftStep (leftStep (x, 0) 0) 1) 2) 3).1 <
      2 ^ (2 * SHIFT 4) := by
    have := h3.2.1
    norm_num [SHIFT] at this ⊢
    exact this
  have h4 := leftStep_spec 4 (by norm_num) _ h3.1 hb4 h3.2.2
  have hb5 : (leftStep (leftStep (leftStep (leftStep (leftStep (x, 0) 0) 1) 2) 3) 4).1 <
      2 ^ (2 * SHIFT 5) := by
    have := h4.2.1
    norm_num [SHIFT] at this ⊢
    exact this
  have h5 := leftStep_spec 5 (by norm_num) _ h4.1 hb5 h4.2.2
  have hone :
      (leftStep (leftStep (leftStep (leftStep (leftStep (leftStep (x, 0) 0) 1) 2) 3) 4)
        5).1 = 1 := by
    have hlt1 := h5.2.1
    have hne1 := h5.1
    norm_num [SHIFT] at hlt1
    omega
  have hzero : LeadingBit
      (leftStep (leftStep (leftStep (leftStep (leftStep (leftStep (x, 0) 0) 1) 2) 3) 4)
        5).1 0 := by
    rw [hone]
    exact ⟨by norm_num, by norm_num⟩
  have hfin := h5.2.2 0 hzero
  rw [Nat.zero_add] at hfin
  simpa [findLeftmostSetBit, List.foldl] using hfin

theorem leadingBit_testBit {x p : Nat} (h : LeadingBit x p) :
    x.testBit p = true ∧ ∀ j, p < j → x.testBit j = false := by
  obtain ⟨hl, hu⟩ := h
  constructor
  · rw [Nat.testBit_to_div_mod]
    have hdiv : x / 2 ^ p = 1 := by
      apply Nat.div_eq_of_lt_le (by simpa using hl)
      have hp : (1 + 1) * 2 ^ p = 2 ^ (p + 1) := by
        rw [pow_succ]
        ring
      omega
    rw [hdiv]
    decide
  · intro j hj
    apply Nat.testBit_lt_two_pow
    calc x < 2 ^ (p + 1) := hu
      _ ≤ 2 ^ j := Nat.pow_le_pow_right (by norm_num) (by omega)

/-- The per-word entry of the `GetMaxOffset` scan
(`fixed_size_allocator.cpp:356-361`): in the last bitmask word the bits at
positions at and above `available_segments_per_buffer % 64` are forced set
(`entry |= ~idx_t(0) << bits_in_last_entry`, truncated to 64 bits). -/
def gmoEntry (avail bitmask_count : Nat) (ws : List Nat) (w : Nat) : Nat :=
  let entry := ws.getD w 0
  if w + 1 = bitmask_count then entry ||| (((2 ^ 64 - 1) <<< (avail % 64)) % 2 ^ 64)
  else entry

/-- The downward word scan of `GetMaxOffset`
(`fixed_size_allocator.cpp:353-390`): fuel `i` means words `0..i-1` are still
to be visited, highest first. An all-ones entry skips its word; otherwise the
leftmost set bit of the inverted entry yields the returned bound. Falling off
the end models the thrown `InternalException("tried to serialize empty
buffer")`. -/
def gmoLoop (avail bitmask_count : Nat) (ws : List Nat) : Nat → Option Nat
  | 0 => none
  | w + 1 =>
    let entry := gmoEntry avail bitmask_count ws w
    if entry = 2 ^ 64 - 1 then gmoLoop avail bitmask_count ws w
    else
      let entry_inv := (2 ^ 64 - 1) ^^^ entry
      let first_valid_bit := findLeftmostSetBit entry_inv
      some ((w + 1) * 64 - (64 - first_valid_bit) + 1)

/-- `FixedSizeAllocator::GetMaxOffset` (`fixed_size_allocator.cpp:342-394`),
on a buffer's bitmask word list. -/
def GetMaxOffset (avail bitmask_count : Nat) (ws : List Nat) : Option Nat :=
  gmoLoop avail bitmask_count ws bitmask_count

theorem gmoLoop_succ (avail bc : Nat) (ws : List Nat) (i : Nat) :
    gmoLoop avail bc ws (i + 1) =
      if gmoEntry avail bc ws i = 2 ^ 64 - 1 then gmoLoop avail bc ws i
      else some ((i + 1) * 64 -
        (64 - findLeftmostSetBit ((2 ^ 64 - 1) ^^^ gmoEntry avail bc ws i)) + 1) := rfl

theorem forceMask_testBit {r u : Nat} (hr : r < 64) (hu : u < 64) :
    (((2 ^ 64 - 1) <<< r) % 2 ^ 64).testBit u = decide (r ≤ u) := by
  rw [Nat.testBit_mod_two_pow, Nat.shiftLeft_eq, Nat.mul_comm,
    Nat.testBit_mul_pow_two, Nat.testBit_two_pow_sub_one]
  by_cases hru : r ≤ u
  · simp [hu, hru, ge_iff_le, show u - r < 64 by omega]
  · simp [hu, hru, ge_iff_le]

theorem getD_mem {ws : List Nat} {i : Nat} (h : i < ws.length) : ws.getD i 0 ∈ ws := by
  rw [List.getD_eq_getElem?_getD, List.getElem?_eq_getElem h]
  simp [List.getElem_mem h]

theorem maskTest_word {ws : List Nat} {i u : Nat} (hu : u < 64) :
    maskTest ws (64 * i + u) = (ws.getD i 0).testBit u := by
  unfold maskTest
  have h1 : (64 * i + u) / 64 = i := by omega
  have h2 : (64 * i + u) % 64 = u := by omega
  rw [h1, h2]

theorem gmoLoop_spec {avail bc : Nat} {ws : List Nat}
    (hbc : bc = avail / 64 + 1) (hlen : ws.length = bc)
    (hws : ∀ w ∈ ws, w < 2 ^ 64) :
    ∀ i, i ≤ bc →
      (∀ t, 64 * i ≤ t → t < avail → maskTest ws t = true) →
      (gmoLoop avail bc ws i = none ∧ ∀ t, t < avail → maskTest ws t = true) ∨
        ∃ m, gmoLoop avail bc ws i = some m ∧ 0 < m ∧ m - 1 < avail ∧ m - 1 < 64 * i ∧
          maskTest ws (m - 1) = false ∧ ∀ t, t < avail → maskTest ws t = false → t < m := by
  intro i
  induction i with
  | zero =>
    intro _ hup
    exact Or.inl ⟨rfl, fun t ht => hup t (by omega) ht⟩
  | succ i ih =>
    intro hle hup
    have hilt : i < ws.length := by omega
    have hwlt : ws.getD i 0 < 2 ^ 64 := hws _ (getD_mem hilt)
    have hr : avail % 64 < 64 := Nat.mod_lt _ (by norm_num)
    have hentry_lt : gmoEntry avail bc ws i < 2 ^ 64 := by
      unfold gmoEntry
      by_cases hlast : i + 1 = bc
      · rw [if_pos hlast]
        exact Nat.or_lt_two_pow hwlt (Nat.mod_lt _ (by positivity))
      · rw [if_neg hlast]
        exact hwlt
    have hbit : ∀ u, u < 64 →
        (gmoEntry avail bc ws i).testBit u =
          ((ws.getD i 0).testBit u || decide (i + 1 = bc ∧ avail % 64 ≤ u)) := by
      intro u hu
      unfold gmoEntry
      by_cases hlast : i + 1 = bc
      · rw [if_pos hlast]
        rw [Nat.testBit_or, forceMask_testBit hr hu]
        simp [hlast]
      · rw [if_neg hlast]
        simp [hlast]
    have havail_eq : i + 1 = bc → avail = 64 * i + avail % 64 := by
      intro hlast
      have hdi : avail / 64 = i := by omega
      omega
    have hnon : i + 1 ≠ bc → 64 * (i + 1) ≤ avail := by
      intro hlast
      have h2 : i + 1 ≤ avail / 64 := by omega
      omega
    by_cases hones : gmoEntry avail bc ws i = 2 ^ 64 - 1
    · have hup' : ∀ t, 64 * i ≤ t → t < avail → maskTest ws t = true := by
        intro t hti hta
        by_cases htup : 64 * (i + 1) ≤ t
        · exact hup t htup hta
        · obtain ⟨u, hu, rfl⟩ : ∃ u, u < 64 ∧ t = 64 * i + u := ⟨t - 64 * i, by omega, by omega⟩
          rw [maskTest_word hu]
          have hb := hbit u hu
          rw [hones, Nat.testBit_two_pow_sub_one] at hb
          have hbu : ((ws.getD i 0).testBit u ||
              decide (i + 1 = bc ∧ avail % 64 ≤ u)) = true := by
            rw [← hb]
            simp [hu]
          have hdf : decide (i + 1 = bc ∧ avail % 64 ≤ u) = false := by
            simp only [decide_eq_false_iff_not]
            rintro ⟨hlast, hru⟩
            have hae := havail_eq hlast
            omega
          rw [hdf, Bool.or_false] at hbu
          exact hbu
      rw [gmoLoop_succ, if_pos hones]
      rcases ih (by omega) hup' with ⟨hnone, hall⟩ | ⟨m, hm, h0, h1, h2, h3, h4⟩
      · exact Or.inl ⟨hnone, hall⟩
      · exact Or.inr ⟨m, hm, h0, h1, by omega, h3, h4⟩
    · right
      rw [gmoLoop_succ, if_neg hones]
      set e := gmoEntry avail bc ws i with hedef
      have hinv_ne : (2 ^ 64 - 1) ^^^ e ≠ 0 := by
        intro hc
        exact hones (Nat.xor_eq_zero.mp hc).symm
      have hinv_lt : (2 ^ 64 - 1) ^^^ e < 2 ^ 64 :=
        Nat.xor_lt_two_pow (by norm_num) hentry_lt
      have hlead := findLeftmostSetBit_leadingBit hinv_ne hinv_lt
      obtain ⟨hfbit, hfhi⟩ := leadingBit_testBit hlead
      set f := findLeftmostSetBit ((2 ^ 64 - 1) ^^^ e) with hfdef
      have hflt : f < 64 := by
        by_contra hc
        have hple : (2 : Nat) ^ 64 ≤ 2 ^ f := Nat.pow_le_pow_right (by norm_num) (by omega)
        have hge := hlead.1
        omega
      have hbit_f : e.testBit f = false := by
        have h1 := hfbit
        rw [Nat.testBit_xor, Nat.testBit_two_pow_sub_one] at h1
        have hd : decide (f < 64) = true := by simp [hflt]
        rw [hd] at h1
        cases hef : e.testBit f
        · rfl
        · rw [hef] at h1
          simp at h1
      have hbit_hi : ∀ u, f < u → u < 64 → e.testBit u = true := by
        intro u hfu hu
        have h1 := hfhi u hfu
        rw [Nat.testBit_xor, Nat.testBit_two_pow_sub_one] at h1
        have hd : decide (u < 64) = true := by simp [hu]
        rw [hd] at h1
        cases heu : e.testBit u
        · rw [heu] at h1
          simp at h1
        · rfl
      have hm_eq : (i + 1) * 64 - (64 - f) + 1 = 64 * i + f + 1 := by omega
      rw [hm_eq]
      have hma : 64 * i + f < avail := by
        by_cases hlast : i + 1 = bc
        · have hae := havail_eq hlast
          by_contra hc
          have hruf : avail % 64 ≤ f := by omega
          have hb := hbit f hflt
          rw [hbit_f] at hb
          have hd : decide (i + 1 = bc ∧ avail % 64 ≤ f) = true := by
            simp [hlast, hruf]
          rw [hd, Bool.or_true] at hb
          exact Bool.false_ne_true hb
        · have h64 := hnon hlast
          omega
      refine ⟨64 * i + f + 1, rfl, by omega, by omega, by omega, ?_, ?_⟩
      · show maskTest ws (64 * i + f + 1 - 1) = false
        have hsub : 64 * i + f + 1 - 1 = 64 * i + f := by omega
        rw [hsub, maskTest_word hflt]
        have hb := hbit f hflt
        rw [hbit_f] at hb
        cases hwf : (ws.getD i 0).testBit f
        · rfl
        · rw [hwf] at hb
          simp at hb
      · intro t hta htu
        by_contra hc
        push_neg at hc
        by_cases htup : 64 * (i + 1) ≤ t
        · have hfree := hup t htup hta
          rw [htu] at hfree
          exact Bool.false_ne_true hfree
        · obtain ⟨u, hu, rfl⟩ : ∃ u, u < 64 ∧ t = 64 * i + u := ⟨t - 64 * i, by omega, by omega⟩
          have hfu : f < u := by omega
          have hbw := hbit u hu
          rw [hbit_hi u hfu hu] at hbw
          rw [maskTest_word hu] at htu
          rw [htu, Bool.false_or] at hbw
          have hconj : i + 1 = bc ∧ avail % 64 ≤ u := of_decide_eq_true hbw.symm
          have hae := havail_eq hconj.1
          have hru := hconj.2
          omega

/-- Claim C6, counterexample: the configuration constructed for
`segment_size = 8000` has `available_segments_per_buffer = 32` yet
`bitmask_count = 2`, so the forced bits of the scan land in word 1 while the
32 real slots all live in word 0. With only slot 0 used (largest used index
0, so the claim requires 1), `GetMaxOffset` returns 96. -/
theorem claim_C6_counterexample :
    construct 8000 = some ⟨8000, 2, 32, 16⟩ ∧
      maskTest (maskClear (setAllValid 32 2) 0) 0 = false ∧
      (∀ i, i < 32 → 0 < i → maskTest (maskClear (setAllValid 32 2) 0) i = true) ∧
      GetMaxOffset 32 2 (maskClear (setAllValid 32 2) 0) = some 96 ∧
      (96 : Nat) ≠ 0 + 1 :=
  ⟨by decide, by decide, by decide, by decide, by decide⟩

/-- Claim C6, amended: when the last bitmask word is the partially-used one
(`bitmask_count = avail / 64 + 1`, which the forced-bit trick of the scan
silently assumes, and which the counterexample configuration violates), and
the bitmask holds `bitmask_count` 64-bit words: if some slot with index below
`avail` is used (bit clear), `GetMaxOffset` returns one plus the largest used
slot index; if no slot is used, it fails with the internal error. -/
theorem claim_C6_get_max_offset_exclusive_bound {avail bc : Nat} {ws : List Nat}
    (hbc : bc = avail / 64 + 1) (hlen : ws.length = bc)
    (hws : ∀ w ∈ ws, w < 2 ^ 64) :
    ((∃ t, t < avail ∧ maskTest ws t = false) →
      ∃ m, GetMaxOffset avail bc ws = some m ∧ 0 < m ∧ m - 1 < avail ∧
        maskTest ws (m - 1) = false ∧ ∀ t, t < avail → maskTest ws t = false → t < m) ∧
      ((∀ t, t < avail → maskTest ws t = true) → GetMaxOffset avail bc ws = none) := by
  have hup : ∀ t, 64 * bc ≤ t → t < avail → maskTest ws t = true := by
    intro t htb hta
    exfalso
    have hlt : avail < 64 * bc := by omega
    omega
  have hmain := gmoLoop_spec hbc hlen hws bc (le_refl bc) hup
  constructor
  · rintro ⟨t, hta, htu⟩
    rcases hmain with ⟨-, hall⟩ | ⟨m, hm, h0, h1, -, h3, h4⟩
    · have hfree := hall t hta
      rw [htu] at hfree
      exact absurd hfree Bool.false_ne_true
    · exact ⟨m, hm, h0, h1, h3, h4⟩
  · intro hall
    rcases hmain with ⟨hnone, -⟩ | ⟨m, -, -, h1, -, h3, -⟩
    · exact hnone
    · have hfree := hall (m - 1) h1
      rw [h3] at hfree
      exact absurd hfree Bool.false_ne_true

/-- Witness for the amended C6 theorem: one word, `avail = 5`, bitmap
`0b10110 = 22` (slots 0 and 3 used, 1, 2, 4 free), bound `4 = 3 + 1`. -/
theorem claim_C6_witness :
    ∃ m, GetMaxOffset 5 1 [22] = some m ∧ 0 < m ∧ m - 1 < 5 ∧
      maskTest [22] (m - 1) = false ∧ ∀ t, t < 5 → maskTest [22] t = false → t < m :=
  (claim_C6_get_max_offset_exclusive_bound (by decide) (by decide) (by decide)).1
    ⟨0, by decide, by decide⟩

/-- Number of used slots (bitmap bits clear) with index below `avail`. -/
def usedCount (avail : Nat) (ws : List Nat) : Nat :=
  (List.range avail).countP fun i => ! maskTest ws i

/-- Sum of the per-buffer `segment_count`s of a buffers map. -/
def segSum (m : List (Nat × FixedSizeBuffer)) : Nat :=
  (m.map fun kv => kv.2.segment_count).sum

/-- Well-formedness of an in-memory buffer: the bitmask holds `bc` 64-bit
words, the data covers all `avail` addressable slots, the bitmap bits at and
above `avail` are clear (as `SetAllValid` leaves them), and `segment_count`
counts exactly the used slots. -/
def BufWF (avail bc : Nat) (buf : FixedSizeBuffer) : Prop :=
  buf.bitmask.length = bc ∧
  (∀ w ∈ buf.bitmask, w < 2 ^ 64) ∧
  buf.data.length = avail ∧
  (∀ t, avail ≤ t → maskTest buf.bitmask t = false) ∧
  buf.segment_count = usedCount avail buf.bitmask

/-- The inductive invariant behind claim C5: the buffers map is key-sorted,
the addressable slots fit the bitmask words, `total_segment_count` is the sum
of the per-buffer counts, and every buffer is well-formed. -/
def C5Inv (st : Alloc) : Prop :=
  MapSorted st.buffers ∧
  st.available_segments_per_buffer ≤ 64 * st.bitmask_count ∧
  st.total_segment_count = segSum st.buffers ∧
  ∀ kv ∈ st.buffers, BufWF st.available_segments_per_buffer st.bitmask_count kv.2

/-- A `free` operation only targets offsets below
`available_segments_per_buffer` (the caller frees pointers previously handed
out by `New`, whose offsets always lie below it). -/
def FreeBounded (avail : Nat) : AllocOp → Prop
  | AllocOp.opFree _ off => off < avail
  | _ => True

instance (avail : Nat) : (op : AllocOp) → Decidable (FreeBounded avail op)
  | AllocOp.opNew => isTrue trivial
  | AllocOp.opFree _ off => inferInstanceAs (Decidable (off < avail))
  | AllocOp.opWrite _ _ _ => isTrue trivial

/-- One buffer's record in the serialized stream
(`fixed_size_allocator.cpp:260-265`): its id, `segment_count` and
`allocation_size` are written to the metadata writer; `bitmask` and `data`
stand for the `allocation_size`-byte prefix of the block that
`FixedSizeBuffer::Serialize` persists (that class lives outside these
sources; the prefix is modelled from the spec: the bitmask words followed by
the first `max_offset` slot payloads). -/
structure SerializedBuffer where
  buffer_id : Nat
  bitmask : List Nat
  data : List Nat
  segment_count : Nat
  allocation_size : Nat
deriving Repr, DecidableEq

/-- The serialized allocator (`fixed_size_allocator.cpp:255-268`):
`segment_size`, the number of buffers, the number of ids with free space,
then the buffer records and the free-space ids in order. -/
structure SerializedAlloc where
  segment_size : Nat
  buffer_count : Nat
  free_count : Nat
  buffers : List SerializedBuffer
  free_ids : List Nat
deriving Repr, DecidableEq

/-- The per-buffer loop of `Serialize` (`fixed_size_allocator.cpp:248-253`):
each buffer's `GetMaxOffset` determines `allocation_size =
max_offset * segment_size + bitmask_offset`, and the prefix of the block up
to that size is persisted; a failing `GetMaxOffset` (`none`) propagates. -/
def serializeBuffers (al : Alloc) : List (Nat × FixedSizeBuffer) → Option (List SerializedBuffer)
  | [] => some []
  | (b, buf) :: rest =>
    match GetMaxOffset al.available_segments_per_buffer al.bitmask_count buf.bitmask with
    | none => none
    | some max_offset =>
      match serializeBuffers al rest with
      | none => none
      | some sbs =>
        some (⟨b, buf.bitmask, buf.data.take max_offset, buf.segment_count,
          wadd (wmul max_offset al.segment_size) al.bitmask_offset⟩ :: sbs)

/-- `FixedSizeAllocator::Serialize` (`fixed_size_allocator.cpp:246-271`). -/
def Serialize (al : Alloc) : Option SerializedAlloc :=
  match serializeBuffers al al.buffers with
  | none => none
  | some sbs =>
    some ⟨al.segment_size, al.buffers.length, al.buffers_with_free_space.length,
      sbs, al.buffers_with_free_space⟩

/-- The in-memory buffer restored from a serialized record
(`fixed_size_allocator.cpp:287-288`): the lazily loaded block carries the
persisted prefix, so `data` holds only the serialized slots. -/
def restoreBuffer (sb : SerializedBuffer) : FixedSizeBuffer :=
  ⟨sb.bitmask, sb.data, sb.segment_count⟩

/-- One iteration of the buffer-reading loop of `Deserialize`
(`fixed_size_allocator.cpp:282-290`): insert the restored buffer under its id
and accumulate its `segment_count` into the total. -/
def desStep (a : Alloc) (sb : SerializedBuffer) : Alloc :=
  { a with buffers := mapInsert a.buffers sb.buffer_id (restoreBuffer sb),
           total_segment_count := a.total_segment_count + sb.segment_count }

/-- `FixedSizeAllocator::Deserialize` (`fixed_size_allocator.cpp:273-294`):
read `segment_size`, reset `total_segment_count` to zero, insert each buffer
record while accumulating the counts, then insert the free-space ids. -/
def Deserialize (al : Alloc) (sd : SerializedAlloc) : Alloc :=
  let al2 := sd.buffers.foldl desStep
    { al with segment_size := sd.segment_size, total_segment_count := 0 }
  { al2 with buffers_with_free_space :=
      sd.free_ids.foldl setInsert al2.buffers_with_free_space }

theorem countP_flip {l : List Nat} (hnd : l.Nodup) {x : Nat} (hx : x ∈ l)
    {p q : Nat → Bool} (hpq : ∀ y ∈ l, y ≠ x → p y = q y)
    (hpx : p x = false) (hqx : q x = true) :
    l.countP q = l.countP p + 1 := by
  induction l with
  | nil => cases hx
  | cons a t ih =>
    rw [List.countP_cons, List.countP_cons]
    rcases List.mem_cons.mp hx with heq | hxt
    · subst heq
      rw [hpx, hqx]
      have hcnt : t.countP p = t.countP q := by
        apply List.countP_congr
        intro y hy
        have hne : y ≠ x := by
          rintro rfl
          exact (List.nodup_cons.mp hnd).1 hy
        rw [hpq y (by simp [hy]) hne]
      rw [hcnt]
      simp
    · have ha : a ≠ x := by
        rintro rfl
        exact (List.nodup_cons.mp hnd).1 hxt
      rw [hpq a (by simp) ha]
      have hrec := ih (List.nodup_cons.mp hnd).2 hxt fun y hy hne => hpq y (by simp [hy]) hne
      omega

theorem mapFind_mem {α : Type} {m : List (Nat × α)} {k : Nat} {v : α}
    (h : mapFind m k = some v) : (k, v) ∈ m := by
  induction m with
  | nil => simp [mapFind] at h
  | cons kv rest ih =>
    obtain ⟨k0, v0⟩ := kv
    rw [mapFind] at h
    by_cases hk : k = k0
    · rw [if_pos hk] at h
      obtain rfl : v0 = v := Option.some.inj h
      subst hk
      simp
    · rw [if_neg hk] at h
      exact List.mem_cons_of_mem _ (ih h)

theorem mem_mapSet {α : Type} {m : List (Nat × α)} {k : Nat} {v : α} {kv : Nat × α}
    (h : kv ∈ mapSet m k v) : kv ∈ m ∨ kv = (k, v) := by
  induction m with
  | nil => simp [mapSet] at h
  | cons kv0 rest ih =>
    obtain ⟨k0, v0⟩ := kv0
    rw [mapSet] at h
    by_cases hk : k = k0
    · rw [if_pos hk] at h
      rcases List.mem_cons.mp h with rfl | hm
      · exact Or.inr (by rw [hk])
      · exact Or.inl (List.mem_cons_of_mem _ hm)
    · rw [if_neg hk] at h
      rcases List.mem_cons.mp h with rfl | hm
      · exact Or.inl (by simp)
      · rcases ih hm with h1 | h2
        · exact Or.inl (List.mem_cons_of_mem _ h1)
        · exact Or.inr h2

theorem mem_mapInsert {α : Type} {m : List (Nat × α)} {k : Nat} {v : α} {kv : Nat × α}
    (h : kv ∈ mapInsert m k v) : kv ∈ m ∨ kv = (k, v) := by
  induction m with
  | nil =>
    rw [mapInsert] at h
    rcases List.mem_cons.mp h with rfl | hm
    · exact Or.inr rfl
    · cases hm
  | cons kv0 rest ih =>
    obtain ⟨k0, v0⟩ := kv0
    rw [mapInsert] at h
    by_cases h1 : k < k0
    · rw [if_pos h1] at h
      rcases List.mem_cons.mp h with rfl | hm
      · exact Or.inr rfl
      · exact Or.inl hm
    · rw [if_neg h1] at h
      by_cases h2 : k = k0
      · rw [if_pos h2] at h
        exact Or.inl h
      · rw [if_neg h2] at h
        rcases List.mem_cons.mp h with rfl | hm
        · exact Or.inl (by simp)
        · rcases ih hm with ha | hb
          · exact Or.inl (List.mem_cons_of_mem _ ha)
          · exact Or.inr hb

theorem mapSorted_iff_keys {m : List (Nat × FixedSizeBuffer)} :
    MapSorted m ↔ SetSorted (m.map Prod.fst) := by
  unfold MapSorted SetSorted
  exact (List.chain'_map Prod.fst).symm

theorem mapInsert_map_fst (m : List (Nat × FixedSizeBuffer)) (k : Nat) (v : FixedSizeBuffer) :
    (mapInsert m k v).map Prod.fst = setInsert (m.map Prod.fst) k := by
  induction m with
  | nil => rfl
  | cons kv rest ih =>
    obtain ⟨k0, v0⟩ := kv
    rw [mapInsert]
    simp only [List.map_cons]
    rw [setInsert]
    by_cases h1 : k < k0
    · rw [if_pos h1, if_pos h1]
      rfl
    · rw [if_neg h1, if_neg h1]
      by_cases h2 : k = k0
      · rw [if_pos h2, if_pos h2]
        rfl
      · rw [if_neg h2, if_neg h2, List.map_cons, ih]

theorem mapSet_map_fst (m : List (Nat × FixedSizeBuffer)) (k : Nat) (v : FixedSizeBuffer) :
    (mapSet m k v).map Prod.fst = m.map Prod.fst := by
  induction m with
  | nil => rfl
  | cons kv rest ih =>
    obtain ⟨k0, v0⟩ := kv
    rw [mapSet]
    by_cases h : k = k0
    · rw [if_pos h]
      rfl
    · rw [if_neg h]
      simp only [List.map_cons, ih]

theorem mapInsert_sorted {m : List (Nat × FixedSizeBuffer)} (hs : MapSorted m) (k : Nat)
    (v : FixedSizeBuffer) : MapSorted (mapInsert m k v) := by
  rw [mapSorted_iff_keys, mapInsert_map_fst]
  exact setInsert_sorted (mapSorted_iff_keys.mp hs) k

theorem mapSet_sorted {m : List (Nat × FixedSizeBuffer)} (hs : MapSorted m) (k : Nat)
    (v : FixedSizeBuffer) : MapSorted (mapSet m k v) := by
  rw [mapSorted_iff_keys, mapSet_map_fst]
  exact mapSorted_iff_keys.mp hs

theorem segSum_mapInsert_new {m : List (Nat × FixedSizeBuffer)} {k : Nat} (v : FixedSizeBuffer)
    (h : mapFind m k = none) : segSum (mapInsert m k v) = segSum m + v.segment_count := by
  induction m with
  | nil => simp [segSum, mapInsert]
  | cons kv rest ih =>
    obtain ⟨k0, v0⟩ := kv
    rw [mapFind] at h
    by_cases hk : k = k0
    · rw [if_pos hk] at h
      exact absurd h (by simp)
    · rw [if_neg hk] at h
      rw [mapInsert]
      by_cases h1 : k < k0
      · rw [if_pos h1]
        simp only [segSum, List.map_cons, List.sum_cons]
        omega
      · rw [if_neg h1, if_neg hk]
        simp only [segSum, List.map_cons, List.sum_cons] at ih ⊢
        rw [ih h]
        omega

theorem segSum_mapSet {m : List (Nat × FixedSizeBuffer)} {k : Nat} {buf : FixedSizeBuffer}
    (v : FixedSizeBuffer) (h : mapFind m k = some buf) :
    segSum (mapSet m k v) + buf.segment_count = segSum m + v.segment_count := by
  induction m with
  | nil => simp [mapFind] at h
  | cons kv rest ih =>
    obtain ⟨k0, v0⟩ := kv
    rw [mapFind] at h
    rw [mapSet]
    by_cases hk : k = k0
    · rw [if_pos hk] at h
      obtain rfl : v0 = buf := Option.some.inj h
      rw [if_pos hk]
      simp only [segSum, List.map_cons, List.sum_cons]
      omega
    · rw [if_neg hk] at h
      rw [if_neg hk]
      simp only [segSum, List.map_cons, List.sum_cons] at ih ⊢
      have hr := ih h
      omega

theorem setAllValid_length (avail bc : Nat) : (setAllValid avail bc).length = bc := by
  simp [setAllValid]

theorem maskTest_setAllValid {avail bc : Nat} (hb : avail ≤ 64 * bc) (t : Nat) :
    maskTest (setAllValid avail bc) t = decide (t < avail) := by
  unfold maskTest setAllValid
  by_cases hw : t / 64 < bc
  · rw [List.getD_eq_getElem?_getD, List.getElem?_map, List.getElem?_range hw]
    simp only [Option.map_some', Option.getD_some]
    by_cases h1 : 64 * (t / 64 + 1) ≤ avail
    · rw [if_pos h1, Nat.testBit_two_pow_sub_one]
      have hm : t % 64 < 64 := by omega
      have ht : t < avail := by omega
      simp [hm, ht]
    · rw [if_neg h1]
      by_cases h2 : avail ≤ 64 * (t / 64)
      · rw [if_pos h2, Nat.zero_testBit]
        have ht : ¬ t < avail := by omega
        simp [ht]
      · rw [if_neg h2, Nat.testBit_two_pow_sub_one]
        have hiff : t % 64 < avail - 64 * (t / 64) ↔ t < avail := by omega
        by_cases ht : t < avail
        · simp [ht, hiff.mpr ht]
        · have hnn : ¬ t % 64 < avail - 64 * (t / 64) := fun hc => ht (hiff.mp hc)
          simp [ht, hnn]
  · rw [List.getD_eq_default]
    · rw [Nat.zero_testBit]
      have ht : ¬ t < avail := by omega
      simp [ht]
    · simpa [setAllValid] using Nat.le_of_not_lt hw

theorem setAllValid_words_lt (avail bc : Nat) : ∀ w ∈ setAllValid avail bc, w < 2 ^ 64 := by
  intro w hw
  simp only [setAllValid, List.mem_map, List.mem_range] at hw
  obtain ⟨j, hj, rfl⟩ := hw
  by_cases h1 : 64 * (j + 1) ≤ avail
  · rw [if_pos h1]
    have : (0 : Nat) < 2 ^ 64 := by positivity
    omega
  · rw [if_neg h1]
    by_cases h2 : avail ≤ 64 * j
    · rw [if_pos h2]
      positivity
    · rw [if_neg h2]
      have hle : (2 : Nat) ^ (avail - 64 * j) ≤ 2 ^ 64 :=
        Nat.pow_le_pow_right (by norm_num) (by omega)
      have hpos : (0 : Nat) < 2 ^ (avail - 64 * j) := by positivity
      omega

theorem getD_lt_two_pow {ws : List Nat} (hws : ∀ w ∈ ws, w < 2 ^ 64) (i : Nat) :
    ws.getD i 0 < 2 ^ 64 := by
  by_cases h : i < ws.length
  · exact hws _ (getD_mem h)
  · rw [List.getD_eq_default _ _ (Nat.le_of_not_lt h)]
    positivity

theorem maskClear_words_lt {ws : List Nat} (hws : ∀ w ∈ ws, w < 2 ^ 64) (i : Nat) :
    ∀ w ∈ maskClear ws i, w < 2 ^ 64 := by
  intro w hw
  rcases List.mem_or_eq_of_mem_set hw with h | rfl
  · exact hws _ h
  · calc ws.getD (i / 64) 0 &&& ((2 ^ 64 - 1) ^^^ 1 <<< (i % 64)) ≤ ws.getD (i / 64) 0 :=
      Nat.and_le_left
    _ < 2 ^ 64 := getD_lt_two_pow hws _

theorem maskSet_words_lt {ws : List Nat} (hws : ∀ w ∈ ws, w < 2 ^ 64) (i : Nat) :
    ∀ w ∈ maskSet ws i, w < 2 ^ 64 := by
  intro w hw
  rcases List.mem_or_eq_of_mem_set hw with h | rfl
  · exact hws _ h
  · apply Nat.or_lt_two_pow (getD_lt_two_pow hws _)
    rw [Nat.one_shiftLeft]
    exact Nat.pow_lt_pow_right (by norm_num) (Nat.mod_lt _ (by norm_num))

theorem usedCount_setAllValid {avail bc : Nat} (hb : avail ≤ 64 * bc) :
    usedCount avail (setAllValid avail bc) = 0 := by
  unfold usedCount
  rw [List.countP_eq_zero]
  intro i hi
  rw [maskTest_setAllValid hb i]
  simp [List.mem_range.mp hi]

theorem usedCount_maskClear {avail : Nat} {ws : List Nat} {off : Nat}
    (hoff : off < avail) (hlen : off / 64 < ws.length) (hbit : maskTest ws off = true) :
    usedCount avail (maskClear ws off) = usedCount avail ws + 1 := by
  unfold usedCount
  apply countP_flip (List.nodup_range avail) (List.mem_range.mpr hoff)
  · intro y hy hne
    rw [maskTest_maskClear off y hlen]
    have hne2 : ¬ off = y := fun hc => hne hc.symm
    simp [hne2]
  · simp [hbit]
  · rw [maskTest_maskClear off off hlen]
    simp

theorem usedCount_maskSet {avail : Nat} {ws : List Nat} {off : Nat}
    (hoff : off < avail) (hlen : off / 64 < ws.length) (hbit : maskTest ws off = false) :
    usedCount avail ws = usedCount avail (maskSet ws off) + 1 := by
  unfold usedCount
  apply countP_flip (List.nodup_range avail) (List.mem_range.mpr hoff)
  · intro y hy hne
    rw [maskTest_maskSet off y hlen]
    have hne2 : ¬ off = y := fun hc => hne hc.symm
    simp [hne2]
  · rw [maskTest_maskSet off off hlen]
    simp
  · simp [hbit]

theorem gofLoop_some {ws : List Nat} (hws : ∀ w ∈ ws, w < 2 ^ 64) :
    ∀ n idx {off : Nat} {ws2 : List Nat}, gofLoop ws idx n = some (off, ws2) →
      maskTest ws off = true ∧ ws2 = maskClear ws off := by
  intro n
  induction n with
  | zero =>
    intro idx off ws2 h
    exact absurd h (by simp [gofLoop])
  | succ n ih =>
    intro idx off ws2 h
    rw [gofLoop] at h
    by_cases hz : ws.getD idx 0 = 0
    · rw [if_pos hz] at h
      exact ih _ h
    · rw [if_neg hz] at h
      have heq := Option.some.inj h
      rw [Prod.mk.injEq] at heq
      obtain ⟨hoff, hws2⟩ := heq
      have hlt : ws.getD idx 0 < 2 ^ 64 := getD_lt_two_pow hws _
      have htz := findFirstValidBit_trailingZeros hz hlt
      have hbit := (trailingZeros_testBit htz).1
      have hf64 : findFirstValidBit (ws.getD idx 0) < 64 := by
        have hdvd : 2 ^ findFirstValidBit (ws.getD idx 0) ≤ ws.getD idx 0 :=
          Nat.le_of_dvd (Nat.pos_of_ne_zero hz) htz.1
        by_contra hc
        have : (2 : Nat) ^ 64 ≤ 2 ^ findFirstValidBit (ws.getD idx 0) :=
          Nat.pow_le_pow_right (by norm_num) (by omega)
        omega
      have hcomm : idx * 64 + findFirstValidBit (ws.getD idx 0) =
          64 * idx + findFirstValidBit (ws.getD idx 0) := by ring
      subst hoff
      subst hws2
      rw [hcomm, maskTest_word hf64]
      exact ⟨hbit, rfl⟩

theorem GetOffset_spec {bc : Nat} {ws : List Nat} {sc off : Nat} {ws2 : List Nat}
    (hws : ∀ w ∈ ws, w < 2 ^ 64)
    (h : GetOffset bc ws sc = some (off, ws2)) :
    maskTest ws off = true ∧ ws2 = maskClear ws off := by
  rw [GetOffset] at h
  by_cases hfast : maskTest ws sc
  · rw [if_pos hfast] at h
    have heq := Option.some.inj h
    rw [Prod.mk.injEq] at heq
    obtain ⟨hoff, hws2⟩ := heq
    subst hoff
    subst hws2
    exact ⟨hfast, rfl⟩
  · rw [if_neg hfast] at h
    exact gofLoop_some hws bc 0 h

theorem getD_take {l : List Nat} {n i : Nat} (h : i < n) :
    (l.take n).getD i 0 = l.getD i 0 := by
  rw [List.getD_eq_getElem?_getD, List.getD_eq_getElem?_getD, List.getElem?_take_of_lt h]

theorem mapFind_cons {α : Type} (kv : Nat × α) (rest : List (Nat × α)) (k : Nat) :
    mapFind (kv :: rest) k = if k = kv.1 then some kv.2 else mapFind rest k := by
  obtain ⟨k0, v0⟩ := kv
  rfl

theorem segSum_cons (kv : Nat × FixedSizeBuffer) (l : List (Nat × FixedSizeBuffer)) :
    segSum (kv :: l) = kv.2.segment_count + segSum l := by
  simp [segSum]

theorem newEnsureBuffer_c5 {al al1 : Alloc} (hinv : C5Inv al)
    (h : newEnsureBuffer al = some al1) :
    C5Inv al1 ∧ al1.available_segments_per_buffer = al.available_segments_per_buffer ∧
      al1.bitmask_count = al.bitmask_count ∧ al1.segment_size = al.segment_size := by
  obtain ⟨hsort, hb64, htot, hwf⟩ := hinv
  rw [newEnsureBuffer] at h
  by_cases hempty : al.buffers_with_free_space.isEmpty
  case neg =>
    rw [if_neg hempty] at h
    obtain rfl : al = al1 := Option.some.inj h
    exact ⟨⟨hsort, hb64, htot, hwf⟩, rfl, rfl, rfl⟩
  case pos =>
    rw [if_pos hempty] at h
    cases hgab : GetAvailableBufferId al.buffers with
    | none =>
      rw [hgab] at h
      exact absurd h (by simp)
    | some id =>
      rw [hgab] at h
      obtain rfl : _ = al1 := Option.some.inj h
      have hid : mapFind al.buffers id = none := (gabLoop_some_spec _ id hgab).1
      refine ⟨⟨?_, hb64, ?_, ?_⟩, rfl, rfl, rfl⟩
      · exact mapInsert_sorted hsort id _
      · show al.total_segment_count = segSum (mapInsert al.buffers id
          ⟨setAllValid al.available_segments_per_buffer al.bitmask_count,
            List.replicate al.available_segments_per_buffer 0, 0⟩)
        rw [segSum_mapInsert_new _ hid]
        simpa using htot
      · intro kv hkv
        rcases mem_mapInsert hkv with hm | hnew
        · exact hwf kv hm
        · rw [hnew]
          refine ⟨setAllValid_length _ _, setAllValid_words_lt _ _, by simp, ?_, ?_⟩
          · intro t ht
            replace ht : al.available_segments_per_buffer ≤ t := ht
            rw [maskTest_setAllValid hb64 t]
            simp only [decide_eq_false_iff_not]
            omega
          · show 0 = usedCount al.available_segments_per_buffer
              (setAllValid al.available_segments_per_buffer al.bitmask_count)
            rw [usedCount_setAllValid hb64]

theorem newFromFree_c5 {al1 : Alloc} {p : IndexPointer} {st' : Alloc} (hinv : C5Inv al1)
    (h : newFromFree al1 = some (p, st')) :
    C5Inv st' ∧ st'.available_segments_per_buffer = al1.available_segments_per_buffer ∧
      st'.bitmask_count = al1.bitmask_count ∧ st'.segment_size = al1.segment_size := by
  obtain ⟨hsort, hb64, htot, hwf⟩ := hinv
  rw [newFromFree] at h
  split at h
  case h_1 => exact absurd h (by simp)
  case h_2 b rest hfse =>
    split at h
    case h_1 hfind => exact absurd h (by simp)
    case h_2 buffer hfind =>
      split at h
      case h_1 hgo => exact absurd h (by simp)
      case h_2 off ws hgo =>
        have heq := Option.some.inj h
        rw [Prod.mk.injEq] at heq
        obtain ⟨hp, hst⟩ := heq
        obtain ⟨hlen, hwords, hdata, htail, hcount⟩ := hwf (b, buffer) (mapFind_mem hfind)
        replace hlen : buffer.bitmask.length = al1.bitmask_count := hlen
        replace hwords : ∀ w ∈ buffer.bitmask, w < 2 ^ 64 := hwords
        replace hdata : buffer.data.length = al1.available_segments_per_buffer := hdata
        replace htail : ∀ t, al1.available_segments_per_buffer ≤ t →
          maskTest buffer.bitmask t = false := htail
        replace hcount : buffer.segment_count =
          usedCount al1.available_segments_per_buffer buffer.bitmask := hcount
        obtain ⟨hbit, hws⟩ := GetOffset_spec hwords hgo
        subst hws
        have hoff : off < al1.available_segments_per_buffer := by
          by_contra hc
          rw [htail off (Nat.le_of_not_lt hc)] at hbit
          exact Bool.false_ne_true hbit
        have hofflen : off / 64 < buffer.bitmask.length := by
          rw [hlen]
          omega
        have hkey : ∀ kv, kv ∈ mapSet al1.buffers b
            ⟨maskClear buffer.bitmask off, buffer.data, buffer.segment_count + 1⟩ →
            BufWF al1.available_segments_per_buffer al1.bitmask_count kv.2 := by
          intro kv hkv
          rcases mem_mapSet hkv with hm | hnew
          · exact hwf kv hm
          · rw [hnew]
            refine ⟨?_, maskClear_words_lt hwords off, hdata, ?_, ?_⟩
            · rw [maskClear_length]
              exact hlen
            · intro t ht
              rw [maskTest_maskClear off t hofflen, htail t ht]
              rfl
            · show buffer.segment_count + 1 = usedCount al1.available_segments_per_buffer
                (maskClear buffer.bitmask off)
              rw [usedCount_maskClear hoff hofflen hbit]
              omega
        have hsum := segSum_mapSet
          (⟨maskClear buffer.bitmask off, buffer.data, buffer.segment_count + 1⟩ :
            FixedSizeBuffer) hfind
        replace hsum : segSum (mapSet al1.buffers b
            ⟨maskClear buffer.bitmask off, buffer.data, buffer.segment_count + 1⟩) +
            buffer.segment_count =
            segSum al1.buffers + (buffer.segment_count + 1) := hsum
        by_cases hfull : buffer.segment_count + 1 = al1.available_segments_per_buffer
        · rw [if_pos hfull] at hst
          subst hst
          refine ⟨⟨mapSet_sorted hsort _ _, hb64, ?_, hkey⟩, rfl, rfl, rfl⟩
          show al1.total_segment_count + 1 = segSum (mapSet al1.buffers b
            ⟨maskClear buffer.bitmask off, buffer.data, buffer.segment_count + 1⟩)
          omega
        · rw [if_neg hfull] at hst
          subst hst
          refine ⟨⟨mapSet_sorted hsort _ _, hb64, ?_, hkey⟩, rfl, rfl, rfl⟩
          show al1.total_segment_count + 1 = segSum (mapSet al1.buffers b
            ⟨maskClear buffer.bitmask off, buffer.data, buffer.segment_count + 1⟩)
          omega

theorem New_c5 {al : Alloc} {p : IndexPointer} {st' : Alloc} (hinv : C5Inv al)
    (h : New al = some (p, st')) :
    C5Inv st' ∧ st'.available_segments_per_buffer = al.available_segments_per_buffer ∧
      st'.bitmask_count = al.bitmask_count ∧ st'.segment_size = al.segment_size := by
  rw [New] at h
  cases hens : newEnsureBuffer al with
  | none =>
    rw [hens] at h
    exact absurd h (by simp)
  | some al1 =>
    rw [hens] at h
    simp only [Option.some_bind] at h
    obtain ⟨h1, e1, e2, e3⟩ := newEnsureBuffer_c5 hinv hens
    obtain ⟨h2, f1, f2, f3⟩ := newFromFree_c5 h1 h
    exact ⟨h2, by omega, by omega, by omega⟩

theorem Free_c5 {al : Alloc} {p : IndexPointer} {st' : Alloc} (hinv : C5Inv al)
    (hoffb : p.offset < al.available_segments_per_buffer)
    (h : Free al p = some st') :
    C5Inv st' ∧ st'.available_segments_per_buffer = al.available_segments_per_buffer ∧
      st'.bitmask_count = al.bitmask_count ∧ st'.segment_size = al.segment_size := by
  obtain ⟨hsort, hb64, htot, hwf⟩ := hinv
  rw [Free] at h
  split at h
  case h_1 => exact absurd h (by simp)
  case h_2 buffer hfind =>
    by_cases hbit : maskTest buffer.bitmask p.offset
    · rw [if_pos hbit] at h
      exact absurd h (by simp)
    · rw [if_neg hbit] at h
      by_cases htz : al.total_segment_count = 0
      · rw [if_pos htz] at h
        exact absurd h (by simp)
      · rw [if_neg htz] at h
        by_cases hcz : buffer.segment_count = 0
        · rw [if_pos hcz] at h
          exact absurd h (by simp)
        · rw [if_neg hcz] at h
          obtain rfl : _ = st' := Option.some.inj h
          obtain ⟨hlen, hwords, hdata, htail, hcount⟩ :=
            hwf (p.buffer_id, buffer) (mapFind_mem hfind)
          replace hlen : buffer.bitmask.length = al.bitmask_count := hlen
          replace hwords : ∀ w ∈ buffer.bitmask, w < 2 ^ 64 := hwords
          replace hdata : buffer.data.length = al.available_segments_per_buffer := hdata
          replace htail : ∀ t, al.available_segments_per_buffer ≤ t →
            maskTest buffer.bitmask t = false := htail
          replace hcount : buffer.segment_count =
            usedCount al.available_segments_per_buffer buffer.bitmask := hcount
          have hofflen : p.offset / 64 < buffer.bitmask.length := by
            rw [hlen]
            omega
          have husc := usedCount_maskSet hoffb hofflen (by simpa using hbit)
          have hsum := segSum_mapSet
            (⟨maskSet buffer.bitmask p.offset, buffer.data, buffer.segment_count - 1⟩ :
              FixedSizeBuffer) hfind
          replace hsum : segSum (mapSet al.buffers p.buffer_id
              ⟨maskSet buffer.bitmask p.offset, buffer.data, buffer.segment_count - 1⟩) +
              buffer.segment_count =
              segSum al.buffers + (buffer.segment_count - 1) := hsum
          refine ⟨⟨mapSet_sorted hsort _ _, hb64, ?_, ?_⟩, rfl, rfl, rfl⟩
          · show al.total_segment_count - 1 = segSum (mapSet al.buffers p.buffer_id
              ⟨maskSet buffer.bitmask p.offset, buffer.data, buffer.segment_count - 1⟩)
            omega
          · intro kv hkv
            rcases mem_mapSet hkv with hm | hnew
            · exact hwf kv hm
            · rw [hnew]
              refine ⟨?_, maskSet_words_lt hwords p.offset, hdata, ?_, ?_⟩
              · rw [maskSet_length]
                exact hlen
              · intro t ht
                replace ht : al.available_segments_per_buffer ≤ t := ht
                rw [maskTest_maskSet p.offset t hofflen, htail t ht]
                have hne2 : ¬ p.offset = t := by omega
                simp [hne2]
              · show buffer.segment_count - 1 = usedCount al.available_segments_per_buffer
                  (maskSet buffer.bitmask p.offset)
                omega

theorem WriteSlot_c5 {al : Alloc} (p : IndexPointer) (v : Nat) (hinv : C5Inv al) :
    C5Inv (WriteSlot al p v) ∧
      (WriteSlot al p v).available_segments_per_buffer =
        al.available_segments_per_buffer ∧
      (WriteSlot al p v).bitmask_count = al.bitmask_count ∧
      (WriteSlot al p v).segment_size = al.segment_size := by
  obtain ⟨hsort, hb64, htot, hwf⟩ := hinv
  cases hfind : mapFind al.buffers p.buffer_id with
  | none =>
    have hw : WriteSlot al p v = al := by
      rw [WriteSlot, hfind]
    rw [hw]
    exact ⟨⟨hsort, hb64, htot, hwf⟩, rfl, rfl, rfl⟩
  | some buffer =>
    have hw : WriteSlot al p v = { al with buffers := mapSet al.buffers p.buffer_id ⟨buffer.bitmask, buffer.data.set p.offset v, buffer.segment_count⟩ } := by
      rw [WriteSlot, hfind]
    rw [hw]
    obtain ⟨hlen, hwords, hdata, htail, hcount⟩ :=
      hwf (p.buffer_id, buffer) (mapFind_mem hfind)
    replace hlen : buffer.bitmask.length = al.bitmask_count := hlen
    replace hwords : ∀ w ∈ buffer.bitmask, w < 2 ^ 64 := hwords
    replace hdata : buffer.data.length = al.available_segments_per_buffer := hdata
    replace htail : ∀ t, al.available_segments_per_buffer ≤ t →
      maskTest buffer.bitmask t = false := htail
    replace hcount : buffer.segment_count =
      usedCount al.available_segments_per_buffer buffer.bitmask := hcount
    have hsum := segSum_mapSet
      (⟨buffer.bitmask, buffer.data.set p.offset v, buffer.segment_count⟩ :
        FixedSizeBuffer) hfind
    replace hsum : segSum (mapSet al.buffers p.buffer_id
        ⟨buffer.bitmask, buffer.data.set p.offset v, buffer.segment_count⟩) +
        buffer.segment_count =
        segSum al.buffers + buffer.segment_count := hsum
    refine ⟨⟨mapSet_sorted hsort _ _, hb64, ?_, ?_⟩, rfl, rfl, rfl⟩
    · show al.total_segment_count = segSum (mapSet al.buffers p.buffer_id
        ⟨buffer.bitmask, buffer.data.set p.offset v, buffer.segment_count⟩)
      omega
    · intro kv hkv
      rcases mem_mapSet hkv with hm | hnew
      · exact hwf kv hm
      · rw [hnew]
        refine ⟨hlen, hwords, ?_, htail, hcount⟩
        show (buffer.data.set p.offset v).length = al.available_segments_per_buffer
        rw [List.length_set]
        exact hdata

theorem runOps_c5inv {ops : List AllocOp} :
    ∀ {al st' : Alloc}, C5Inv al →
      (∀ op ∈ ops, FreeBounded al.available_segments_per_buffer op) →
      runOps al ops = some st' →
      C5Inv st' ∧
        st'.available_segments_per_buffer = al.available_segments_per_buffer ∧
        st'.bitmask_count = al.bitmask_count ∧
        st'.segment_size = al.segment_size := by
  induction ops with
  | nil =>
    intro al st' hinv _ h
    obtain rfl : al = st' := Option.some.inj h
    exact ⟨hinv, rfl, rfl, rfl⟩
  | cons op rest ih =>
    intro al st' hinv hops h
    rw [runOps] at h
    cases hop : runOp al op with
    | none =>
      rw [hop] at h
      exact absurd h (by simp)
    | some al1 =>
      rw [hop] at h
      have hstep : C5Inv al1 ∧
          al1.available_segments_per_buffer = al.available_segments_per_buffer ∧
          al1.bitmask_count = al.bitmask_count ∧
          al1.segment_size = al.segment_size := by
        cases op with
        | opNew =>
          rw [runOp] at hop
          cases hnew : New al with
          | none =>
            rw [hnew] at hop
            exact absurd hop (by simp)
          | some pr =>
            rw [hnew] at hop
            obtain rfl : pr.2 = al1 := Option.some.inj hop
            exact New_c5 hinv (show New al = some (pr.1, pr.2) by rw [hnew])
        | opFree b off =>
          rw [runOp] at hop
          have hbound : off < al.available_segments_per_buffer :=
            hops (AllocOp.opFree b off) (by simp)
          exact Free_c5 hinv hbound hop
        | opWrite b off v =>
          rw [runOp] at hop
          obtain rfl : WriteSlot al ⟨b, off⟩ v = al1 := Option.some.inj hop
          exact WriteSlot_c5 ⟨b, off⟩ v hinv
      obtain ⟨h1, h2, h3, h4⟩ := hstep
      have hops1 : ∀ op2 ∈ rest, FreeBounded al1.available_segments_per_buffer op2 := by
        intro op2 hmem
        rw [h2]
        exact hops _ (by simp [hmem])
      obtain ⟨r1, r2, r3, r4⟩ := ih h1 hops1 h
      exact ⟨r1, by omega, by omega, by omega⟩

theorem C5Inv_init {s : Nat} {cfg : AllocConfig} (hs1 : 1 ≤ s)
    (hs2 : s ≤ BLOCK_SIZE - validity_size) (hcfg : construct s = some cfg) :
    C5Inv (initAlloc cfg) := by
  obtain ⟨cfg2, hc2, -, -, hlt, -⟩ := construct_props s hs1 hs2
  rw [hcfg] at hc2
  obtain rfl : cfg = cfg2 := Option.some.inj hc2
  refine ⟨by simp [MapSorted, initAlloc], ?_, rfl, ?_⟩
  · show cfg.available_segments_per_buffer ≤ 64 * cfg.bitmask_count
    omega
  · intro kv hkv
    simp [initAlloc] at hkv

theorem desFold_proj (sbs : List SerializedBuffer) :
    ∀ a : Alloc,
      (sbs.foldl desStep a).buffers =
        (sbs.map fun sb => (sb.buffer_id, restoreBuffer sb)).foldl
          (fun m kv => mapInsert m kv.1 kv.2) a.buffers ∧
      (sbs.foldl desStep a).total_segment_count =
        a.total_segment_count + (sbs.map fun sb => sb.segment_count).sum ∧
      (sbs.foldl desStep a).buffers_with_free_space = a.buffers_with_free_space ∧
      (sbs.foldl desStep a).segment_size = a.segment_size := by
  induction sbs with
  | nil =>
    intro a
    exact ⟨rfl, by simp, rfl, rfl⟩
  | cons sb rest ih =>
    intro a
    obtain ⟨h1, h2, h3, h4⟩ := ih (desStep a sb)
    refine ⟨?_, ?_, ?_, ?_⟩
    · rw [List.foldl_cons, h1, List.map_cons, List.foldl_cons]
      rfl
    · rw [List.foldl_cons, h2, List.map_cons, List.sum_cons]
      show a.total_segment_count + sb.segment_count + _ = _
      omega
    · rw [List.foldl_cons, h3]
      rfl
    · rw [List.foldl_cons, h4]
      rfl

theorem Deserialize_proj (al : Alloc) (sd : SerializedAlloc) :
    (Deserialize al sd).segment_size = sd.segment_size ∧
    (Deserialize al sd).total_segment_count =
      (sd.buffers.map fun sb => sb.segment_count).sum ∧
    (Deserialize al sd).buffers =
      (sd.buffers.map fun sb => (sb.buffer_id, restoreBuffer sb)).foldl
        (fun m kv => mapInsert m kv.1 kv.2) al.buffers ∧
    (Deserialize al sd).buffers_with_free_space =
      sd.free_ids.foldl setInsert al.buffers_with_free_space := by
  obtain ⟨p1, p2, p3, p4⟩ := desFold_proj sd.buffers { al with segment_size := sd.segment_size, total_segment_count := 0 }
  refine ⟨?_, ?_, ?_, ?_⟩
  · show (sd.buffers.foldl desStep { al with segment_size := sd.segment_size, total_segment_count := 0 }).segment_size = sd.segment_size
    exact p4.trans rfl
  · show (sd.buffers.foldl desStep { al with segment_size := sd.segment_size, total_segment_count := 0 }).total_segment_count = (sd.buffers.map fun sb => sb.segment_count).sum
    refine p2.trans ?_
    simp
  · show (sd.buffers.foldl desStep { al with segment_size := sd.segment_size, total_segment_count := 0 }).buffers = (sd.buffers.map fun sb => (sb.buffer_id, restoreBuffer sb)).foldl (fun m kv => mapInsert m kv.1 kv.2) al.buffers
    exact p1.trans rfl
  · show sd.free_ids.foldl setInsert (sd.buffers.foldl desStep { al with segment_size := sd.segment_size, total_segment_count := 0 }).buffers_with_free_space = sd.free_ids.foldl setInsert al.buffers_with_free_space
    exact congrArg (fun init => sd.free_ids.foldl setInsert init) (p3.trans rfl)

theorem mapInsert_append {m : List (Nat × FixedSizeBuffer)} {k : Nat} {v : FixedSizeBuffer}
    (h : ∀ kv ∈ m, kv.1 < k) : mapInsert m k v = m ++ [(k, v)] := by
  induction m with
  | nil => rfl
  | cons kv0 rest ih =>
    obtain ⟨k0, v0⟩ := kv0
    have hk0 : k0 < k := h (k0, v0) (by simp)
    rw [mapInsert, if_neg (by omega), if_neg (by omega)]
    rw [ih fun kv hkv => h kv (List.mem_cons_of_mem _ hkv)]
    rfl

theorem foldl_mapInsert_sorted :
    ∀ (l acc : List (Nat × FixedSizeBuffer)), MapSorted (acc ++ l) →
      l.foldl (fun m kv => mapInsert m kv.1 kv.2) acc = acc ++ l := by
  intro l
  induction l with
  | nil =>
    intro acc _
    simp
  | cons kv rest ih =>
    intro acc hs
    rw [List.foldl_cons]
    have hpw := List.chain'_iff_pairwise.mp hs
    rw [List.pairwise_append] at hpw
    have hlt : ∀ kv2 ∈ acc, kv2.1 < kv.1 := fun kv2 hkv2 => hpw.2.2 kv2 hkv2 kv (by simp)
    rw [mapInsert_append hlt]
    have hs2 : MapSorted ((acc ++ [kv]) ++ rest) := by
      rw [List.append_assoc]
      exact hs
    rw [ih _ hs2, List.append_assoc]
    rfl

theorem setInsert_append {l : List Nat} {k : Nat} (h : ∀ x ∈ l, x < k) :
    setInsert l k = l ++ [k] := by
  induction l with
  | nil => rfl
  | cons k0 rest ih =>
    have hk0 : k0 < k := h k0 (by simp)
    rw [setInsert, if_neg (by omega), if_neg (by omega)]
    rw [ih fun x hx => h x (List.mem_cons_of_mem _ hx)]
    rfl

theorem foldl_setInsert_sorted :
    ∀ (l acc : List Nat), SetSorted (acc ++ l) → l.foldl setInsert acc = acc ++ l := by
  intro l
  induction l with
  | nil =>
    intro acc _
    simp
  | cons k rest ih =>
    intro acc hs
    rw [List.foldl_cons]
    have hpw := List.chain'_iff_pairwise.mp hs
    rw [List.pairwise_append] at hpw
    have hlt : ∀ x ∈ acc, x < k := fun x hx => hpw.2.2 x hx k (by simp)
    rw [setInsert_append hlt]
    have hs2 : SetSorted ((acc ++ [k]) ++ rest) := by
      rw [List.append_assoc]
      exact hs
    rw [ih _ hs2, List.append_assoc]
    rfl

theorem segSum_map_restore (sbs : List SerializedBuffer) :
    segSum (sbs.map fun sb => (sb.buffer_id, restoreBuffer sb)) =
      (sbs.map fun sb => sb.segment_count).sum := by
  induction sbs with
  | nil => rfl
  | cons sb rest ih =>
    simp only [List.map_cons, List.sum_cons]
    rw [segSum_cons, ih]
    rfl

theorem serializeBuffers_spec {al : Alloc}
    (hsane : al.bitmask_count = al.available_segments_per_buffer / 64 + 1) :
    ∀ bufs : List (Nat × FixedSizeBuffer),
      (∀ kv ∈ bufs, BufWF al.available_segments_per_buffer al.bitmask_count kv.2) →
      (∀ kv ∈ bufs, 1 ≤ kv.2.segment_count) →
      ∃ sbs, serializeBuffers al bufs = some sbs ∧
        (sbs.map fun sb => (sb.buffer_id, restoreBuffer sb)).map Prod.fst =
          bufs.map Prod.fst ∧
        segSum (sbs.map fun sb => (sb.buffer_id, restoreBuffer sb)) = segSum bufs ∧
        ∀ b buf, mapFind bufs b = some buf →
          ∃ buf2,
            mapFind (sbs.map fun sb => (sb.buffer_id, restoreBuffer sb)) b = some buf2 ∧
            buf2.segment_count = buf.segment_count ∧
            ∀ off, off < al.available_segments_per_buffer →
              maskTest buf.bitmask off = false →
              buf2.data.getD off 0 = buf.data.getD off 0 := by
  intro bufs
  induction bufs with
  | nil =>
    intro _ _
    refine ⟨[], rfl, rfl, rfl, ?_⟩
    intro b buf h
    simp [mapFind] at h
  | cons kv rest ih =>
    intro hwf hne
    obtain ⟨b, buf⟩ := kv
    obtain ⟨hlen, hwords, hdata, htail, hcount⟩ := hwf (b, buf) (by simp)
    replace hlen : buf.bitmask.length = al.bitmask_count := hlen
    replace hwords : ∀ w ∈ buf.bitmask, w < 2 ^ 64 := hwords
    replace hcount : buf.segment_count =
      usedCount al.available_segments_per_buffer buf.bitmask := hcount
    have hne1 : 1 ≤ buf.segment_count := hne (b, buf) (by simp)
    have hused : ∃ t, t < al.available_segments_per_buffer ∧
        maskTest buf.bitmask t = false := by
      have hpos : 0 < usedCount al.available_segments_per_buffer buf.bitmask := by omega
      rw [usedCount] at hpos
      obtain ⟨t, ht, hpt⟩ := List.countP_pos_iff.mp hpos
      refine ⟨t, List.mem_range.mp ht, ?_⟩
      simpa using hpt
    have hup : ∀ t, 64 * al.bitmask_count ≤ t → t < al.available_segments_per_buffer →
        maskTest buf.bitmask t = true := by
      intro t htb hta
      exfalso
      have hlt : al.available_segments_per_buffer < 64 * al.bitmask_count := by omega
      omega
    have hmain := gmoLoop_spec hsane hlen hwords al.bitmask_count (le_refl _) hup
    rcases hmain with ⟨-, hall⟩ | ⟨m, hm, h0, h1, -, h3, h4⟩
    · obtain ⟨t, hta, htu⟩ := hused
      rw [hall t hta] at htu
      exact absurd htu (by simp)
    · obtain ⟨sbs, hser, hkeys, hsum, hfind⟩ := ih
        (fun kv hkv => hwf kv (List.mem_cons_of_mem _ hkv))
        (fun kv hkv => hne kv (List.mem_cons_of_mem _ hkv))
      have hgmo : GetMaxOffset al.available_segments_per_buffer al.bitmask_count
          buf.bitmask = some m := hm
      refine ⟨⟨b, buf.bitmask, buf.data.take m, buf.segment_count,
        wadd (wmul m al.segment_size) al.bitmask_offset⟩ :: sbs, ?_, ?_, ?_, ?_⟩
      · simp only [serializeBuffers, hgmo, hser]
      · simp only [List.map_cons, hkeys]
      · simp only [List.map_cons]
        rw [segSum_cons, segSum_cons, hsum]
        rfl
      · intro b2 buf2 hfindb
        rw [mapFind_cons] at hfindb
        by_cases hb2 : b2 = b
        · rw [if_pos (by exact hb2)] at hfindb
          obtain rfl : buf = buf2 := Option.some.inj hfindb
          subst hb2
          refine ⟨⟨buf.bitmask, buf.data.take m, buf.segment_count⟩, ?_, rfl, ?_⟩
          · show mapFind ((b2, (⟨buf.bitmask, buf.data.take m, buf.segment_count⟩ :
              FixedSizeBuffer)) :: (sbs.map fun sb => (sb.buffer_id, restoreBuffer sb)))
              b2 = _
            rw [mapFind_cons, if_pos rfl]
          · intro off hoff hu
            exact getD_take (h4 off hoff hu)
        · rw [if_neg (by exact hb2)] at hfindb
          obtain ⟨buf3, hf3, hseg3, hdat3⟩ := hfind b2 buf2 hfindb
          refine ⟨buf3, ?_, hseg3, hdat3⟩
          show mapFind ((b, (⟨buf.bitmask, buf.data.take m, buf.segment_count⟩ :
            FixedSizeBuffer)) :: (sbs.map fun sb => (sb.buffer_id, restoreBuffer sb)))
            b2 = some buf3
          rw [mapFind_cons, if_neg (by exact hb2)]
          exact hf3

/-- The reachable state behind the C5 counterexample: construct for
`segment_size = 4096` (one bitmask word, 63 slots), allocate once, then free
the slot again, leaving one completely empty buffer. -/
def c5EmptyState : Alloc :=
  (runOps (initAlloc ⟨4096, 1, 63, 8⟩) [AllocOp.opNew, AllocOp.opFree 0 0]).getD
    (initAlloc ⟨4096, 1, 63, 8⟩)

set_option maxRecDepth 100000 in
/-- Claim C5, counterexample: the allocator state reached by `new()` followed
by `free()` of the returned pointer is reachable, but `Serialize` on it fails
(`GetMaxOffset` throws on the empty buffer), so no serialize-then-deserialize
round trip exists for it. -/
theorem claim_C5_counterexample :
    construct 4096 = some ⟨4096, 1, 63, 8⟩ ∧
      runOps (initAlloc ⟨4096, 1, 63, 8⟩) [AllocOp.opNew, AllocOp.opFree 0 0] =
        some c5EmptyState ∧
      Serialize c5EmptyState = none :=
  ⟨by decide, by decide, by decide⟩

/-- Claim C5, amended: the round trip holds for reachable states whose
buffers are all non-empty (a state with an empty buffer makes `Serialize`
throw — see the counterexample) under a configuration whose last bitmask word
is the partial one, with frees restricted to genuine slot offsets. Then
`Serialize` succeeds and `Deserialize` into a freshly constructed allocator
with the same `segment_size` yields equal `segment_size`, equal
`total_segment_count`, equal `buffers_with_free_space`, equal per-buffer
`segment_count` for every buffer id, and the contents at every live pointer
round-trip. -/
theorem claim_C5_serialize_roundtrip {s : Nat} {cfg : AllocConfig} {ops : List AllocOp}
    {st : Alloc} (hs1 : 1 ≤ s) (hs2 : s ≤ BLOCK_SIZE - validity_size)
    (hcfg : construct s = some cfg)
    (hsane : cfg.bitmask_count = cfg.available_segments_per_buffer / 64 + 1)
    (hops : ∀ op ∈ ops, FreeBounded cfg.available_segments_per_buffer op)
    (hrun : runOps (initAlloc cfg) ops = some st)
    (hnonempty : ∀ kv ∈ st.buffers, 1 ≤ kv.2.segment_count) :
    ∃ sd, Serialize st = some sd ∧
      (Deserialize (initAlloc cfg) sd).segment_size = st.segment_size ∧
      (Deserialize (initAlloc cfg) sd).total_segment_count = st.total_segment_count ∧
      (Deserialize (initAlloc cfg) sd).buffers_with_free_space =
        st.buffers_with_free_space ∧
      ∀ b buf, mapFind st.buffers b = some buf →
        ∃ buf2, mapFind (Deserialize (initAlloc cfg) sd).buffers b = some buf2 ∧
          buf2.segment_count = buf.segment_count ∧
          ∀ off, off < st.available_segments_per_buffer →
            maskTest buf.bitmask off = false →
            buf2.data.getD off 0 = buf.data.getD off 0 := by
  obtain ⟨hC5, havail, hbc, hss⟩ :=
    runOps_c5inv (C5Inv_init hs1 hs2 hcfg) hops hrun
  obtain ⟨hC4, -⟩ := runOps_inv (C4Inv_init hs1 hs2 hcfg) hrun
  have hfs_sorted : SetSorted st.buffers_with_free_space := hC4.1
  obtain ⟨hsorted, hb64, htot, hwf⟩ := hC5
  have hsane2 : st.bitmask_count = st.available_segments_per_buffer / 64 + 1 := by
    rw [havail, hbc]
    exact hsane
  obtain ⟨sbs, hser, hkeys, hsum, hfind⟩ :=
    serializeBuffers_spec hsane2 st.buffers hwf hnonempty
  have hLsorted : MapSorted (sbs.map fun sb => (sb.buffer_id, restoreBuffer sb)) := by
    rw [mapSorted_iff_keys, hkeys]
    exact mapSorted_iff_keys.mp hsorted
  obtain ⟨q1, q2, q3, q4⟩ := Deserialize_proj (initAlloc cfg)
    ⟨st.segment_size, st.buffers.length, st.buffers_with_free_space.length, sbs,
      st.buffers_with_free_space⟩
  have hLbufs : (Deserialize (initAlloc cfg)
      ⟨st.segment_size, st.buffers.length, st.buffers_with_free_space.length, sbs,
        st.buffers_with_free_space⟩).buffers =
      sbs.map fun sb => (sb.buffer_id, restoreBuffer sb) := by
    rw [q3]
    exact foldl_mapInsert_sorted _ _ hLsorted
  refine ⟨⟨st.segment_size, st.buffers.length, st.buffers_with_free_space.length, sbs,
    st.buffers_with_free_space⟩, ?_, ?_, ?_, ?_, ?_⟩
  · simp only [Serialize, hser]
  · exact q1
  · rw [q2]
    show (sbs.map fun sb => sb.segment_count).sum = st.total_segment_count
    rw [← segSum_map_restore, hsum]
    exact htot.symm
  · rw [q4]
    exact foldl_setInsert_sorted _ _ hfs_sorted
  · intro b buf hfb
    obtain ⟨buf2, hf2, hseg2, hdat2⟩ := hfind b buf hfb
    refine ⟨buf2, ?_, hseg2, hdat2⟩
    rw [hLbufs]
    exact hf2

/-- The reachable state behind the C5 witness: one allocation and one caller
write of value 7 into slot 0 for `segment_size = 4096`. -/
def c5WitnessState : Alloc :=
  (runOps (initAlloc ⟨4096, 1, 63, 8⟩) [AllocOp.opNew, AllocOp.opWrite 0 0 7]).getD
    (initAlloc ⟨4096, 1, 63, 8⟩)

set_option maxRecDepth 100000 in
theorem claim_C5_witness :
    ∃ sd, Serialize c5WitnessState = some sd ∧
      (Deserialize (initAlloc ⟨4096, 1, 63, 8⟩) sd).segment_size =
        c5WitnessState.segment_size ∧
      (Deserialize (initAlloc ⟨4096, 1, 63, 8⟩) sd).total_segment_count =
        c5WitnessState.total_segment_count ∧
      (Deserialize (initAlloc ⟨4096, 1, 63, 8⟩) sd).buffers_with_free_space =
        c5WitnessState.buffers_with_free_space ∧
      ∀ b buf, mapFind c5WitnessState.buffers b = some buf →
        ∃ buf2,
          mapFind (Deserialize (initAlloc ⟨4096, 1, 63, 8⟩) sd).buffers b = some buf2 ∧
          buf2.segment_count = buf.segment_count ∧
          ∀ off, off < c5WitnessState.available_segments_per_buffer →
            maskTest buf.bitmask off = false →
            buf2.data.getD off 0 = buf.data.getD off 0 :=
  @claim_C5_serialize_roundtrip 4096 ⟨4096, 1, 63, 8⟩
    [AllocOp.opNew, AllocOp.opWrite 0 0 7] c5WitnessState
    (by decide) (by decide) (by decide) (by decide) (by decide) (by decide) (by decide)

end FixedSizeAllocator
